import Mathlib

/-! SinchMessaging: the `SinchMessageCodec` wire format.

A shallow embedding of `src/cpp/messaging.cpp` (class `Message`, and
`SinchMessageCodec::encode`, `decode`, `validateMessage`), followed by the
properties of the codec.

Modelling conventions:

* `uint8_t` and `char` are `Byte = Fin 256`; `std::vector<uint8_t>` and
  `std::string` are `Bytes = List Byte` (`std::string` compares its characters
  as unsigned bytes).
* `std::map<std::string, std::string>` is `HeaderMap`: the list of its entries
  in iteration order, which the container keeps strictly ascending by key.
* `uint16_t` values are natural numbers reduced `% 65536` at every cast;
  `size_t` values are natural numbers (a `std::vector` is far too short for
  `offset + len` to wrap at `2 ^ 64`).
* `throw std::invalid_argument(..)` is the `Except.error` result, one
  constructor per message text.  Every container access is checked, and an
  access outside the container gives `outOfBounds` instead of a value.
-/

namespace SinchMessaging

/-! ## Data model -/

/-- One `uint8_t` (or one `char` of a `std::string`). -/
abbrev Byte := Fin 256

/-- A `std::vector<uint8_t>` or a `std::string`. -/
abbrev Bytes := List Byte

/-- The cast `static_cast<uint8_t>(n)`. -/
def toU8 (n : Nat) : Byte := ⟨n % 256, Nat.mod_lt n (by decide)⟩

/-- The cast `static_cast<uint16_t>(n)`. -/
def toU16 (n : Nat) : Nat := n % 65536

/-- The `operator<` of `std::string`: byte-wise lexicographic order, a proper
prefix being smaller. -/
def strLt : Bytes → Bytes → Bool
  | [], [] => false
  | [], _ :: _ => true
  | _ :: _, [] => false
  | a :: as, b :: bs => if a.val < b.val then true else if b.val < a.val then false else strLt as bs

/-- The order of two entries of a `std::map`: by key only. -/
def keyLt (a b : Bytes × Bytes) : Prop := strLt a.1 b.1 = true

instance (a b : Bytes × Bytes) : Decidable (keyLt a b) := by
  unfold keyLt; exact inferInstance

/-- A `std::map<std::string, std::string>`: its entries in iteration order,
strictly ascending by key. -/
structure HeaderMap where
  entries : List (Bytes × Bytes)
  ascending : entries.Pairwise keyLt

/-- The member `std::map::size`. -/
def HeaderMap.size (h : HeaderMap) : Nat := h.entries.length

/-- Insertion of `(k, v)` at its place in an ascending entry list; an entry
whose key is equivalent to `k` keeps its key and takes the new value. -/
def insertEntry (k v : Bytes) : List (Bytes × Bytes) → List (Bytes × Bytes)
  | [] => [(k, v)]
  | (k', v') :: rest =>
    if strLt k k' then (k, v) :: (k', v') :: rest
    else if strLt k' k then (k', v') :: insertEntry k v rest
    else (k', v) :: rest

/-- Nothing is below the empty string. -/
theorem strLt_nil_right (a : Bytes) : strLt a [] = false := by
  cases a <;> rfl

/-- No string is below itself. -/
theorem strLt_irrefl (a : Bytes) : strLt a a = false := by
  induction a with
  | nil => rfl
  | cons x xs ih => simp [strLt, ih]

/-- The order `strLt` is transitive. -/
theorem strLt_trans : ∀ (a b c : Bytes), strLt a b = true → strLt b c = true → strLt a c = true
  | [], [], _, h, _ => by simp [strLt] at h
  | [], _ :: _, [], _, h => by simp [strLt] at h
  | [], _ :: _, _ :: _, _, _ => by simp [strLt]
  | _ :: _, [], _, h, _ => by simp [strLt] at h
  | _ :: _, _ :: _, [], _, h => by simp [strLt] at h
  | x :: xs, y :: ys, z :: zs, h1, h2 => by
    simp only [strLt] at h1 h2 ⊢
    have ih := strLt_trans xs ys zs
    split_ifs at h1 h2 ⊢ <;> first | rfl | omega | (exact ih h1 h2)

/-- Two strings neither of which is below the other are the same string. -/
theorem strLt_connex : ∀ (a b : Bytes), strLt a b = false → strLt b a = false → a = b
  | [], [], _, _ => rfl
  | [], _ :: _, h, _ => by simp [strLt] at h
  | _ :: _, [], _, h => by simp [strLt] at h
  | x :: xs, y :: ys, h1, h2 => by
    simp only [strLt] at h1 h2
    split_ifs at h1 h2 with h3 h4
    have hxy : x = y := Fin.ext (by omega)
    rw [hxy, strLt_connex xs ys h1 h2]

/-- The order `strLt` is asymmetric. -/
theorem strLt_asymm (a b : Bytes) (h : strLt a b = true) : strLt b a = false := by
  cases hba : strLt b a with
  | false => rfl
  | true =>
    have := strLt_trans a b a h hba
    rw [strLt_irrefl] at this
    exact absurd this (by decide)

/-- Every entry of `insertEntry k v l` is the new entry or carries the key of
an entry of `l`. -/
theorem key_of_mem_insertEntry (k v : Bytes) :
    ∀ (l : List (Bytes × Bytes)) (p : Bytes × Bytes), p ∈ insertEntry k v l →
      p.1 = k ∨ ∃ q ∈ l, q.1 = p.1
  | [], p, hp => by
    simp only [insertEntry, List.mem_singleton] at hp
    exact Or.inl (by rw [hp])
  | (k', v') :: rest, p, hp => by
    simp only [insertEntry] at hp
    split_ifs at hp with h1 h2
    · rcases List.mem_cons.1 hp with h | h
      · exact Or.inl (by rw [h])
      · exact Or.inr ⟨p, h, rfl⟩
    · rcases List.mem_cons.1 hp with h | h
      · exact Or.inr ⟨(k', v'), List.mem_cons_self _ _, by rw [h]⟩
      · rcases key_of_mem_insertEntry k v rest p h with h' | ⟨q, hq, hqp⟩
        · exact Or.inl h'
        · exact Or.inr ⟨q, List.mem_cons_of_mem _ hq, hqp⟩
    · rcases List.mem_cons.1 hp with h | h
      · exact Or.inr ⟨(k', v'), List.mem_cons_self _ _, by rw [h]⟩
      · exact Or.inr ⟨p, List.mem_cons_of_mem _ h, rfl⟩

/-- Insertion keeps an entry list strictly ascending by key. -/
theorem insertEntry_ascending (k v : Bytes) :
    ∀ (l : List (Bytes × Bytes)), l.Pairwise keyLt → (insertEntry k v l).Pairwise keyLt
  | [], _ => by simp [insertEntry]
  | (k', v') :: rest, h => by
    have hhd := (List.pairwise_cons.1 h).1
    have htl := (List.pairwise_cons.1 h).2
    simp only [insertEntry]
    split_ifs with h1 h2
    · refine List.pairwise_cons.2 ⟨?_, h⟩
      intro p hp
      rcases List.mem_cons.1 hp with hp | hp
      · rw [hp]; exact h1
      · exact strLt_trans _ _ _ h1 (hhd p hp)
    · refine List.pairwise_cons.2 ⟨?_, insertEntry_ascending k v rest htl⟩
      intro p hp
      rcases key_of_mem_insertEntry k v rest p hp with hk | ⟨q, hq, hqp⟩
      · show strLt k' p.1 = true
        rw [hk]; exact h2
      · show strLt k' p.1 = true
        rw [← hqp]; exact hhd q hq
    · exact List.pairwise_cons.2 ⟨hhd, htl⟩

/-- The empty `std::map`. -/
def HeaderMap.empty : HeaderMap := ⟨[], List.Pairwise.nil⟩

/-- The statement `headers[name] = value` on a `std::map`. -/
def HeaderMap.assign (h : HeaderMap) (name value : Bytes) : HeaderMap :=
  ⟨insertEntry name value h.entries, insertEntry_ascending name value h.entries h.ascending⟩

/-- Class `Message`. -/
structure Message where
  headers : HeaderMap
  payload : Bytes

/-- The `Message::operator==`: the two maps hold the same entries and the two
payloads the same bytes. -/
def Message.opEq (a b : Message) : Bool :=
  a.headers.entries == b.headers.entries && a.payload == b.payload

/-- The constant `SinchMessageCodec::MAX_HEADERS`. -/
def MAX_HEADERS : Nat := 63

/-- The constant `SinchMessageCodec::MAX_HEADER_SIZE`. -/
def MAX_HEADER_SIZE : Nat := 1023

/-- The constant `SinchMessageCodec::MAX_PAYLOAD_SIZE`. -/
def MAX_PAYLOAD_SIZE : Nat := 256 * 1024

/-- The exceptions thrown by `validateMessage`, by message text. -/
inductive EncodeError where
  /-- Thrown with "Maximum 63 headers allowed." -/
  | tooManyHeaders
  /-- Thrown with "Maximum payload size of 256 KiB allowed." -/
  | payloadTooLarge
  /-- Thrown with "Header name and value must be <= 1023 bytes." -/
  | headerFieldTooLarge
  deriving DecidableEq, Repr

/-- The exceptions thrown by `decode`, by message text, and the outcome of an
access outside a container. -/
inductive DecodeError where
  /-- Thrown with "Empty data." -/
  | emptyData
  /-- Thrown with "Invalid header count." -/
  | invalidHeaderCount
  /-- Thrown with "Incomplete header size data." -/
  | incompleteHeaderSizeData
  /-- Thrown with "Incomplete header data" -/
  | incompleteHeaderData
  /-- An index or iterator range outside its container. -/
  | outOfBounds
  deriving DecidableEq, Repr

/-! ## `validateMessage` and `encode` -/

/-- The loop of `validateMessage` over the headers (lines 106-110). -/
def validateHeaders : List (Bytes × Bytes) → Except EncodeError Unit
  | [] => .ok ()
  | (name, value) :: rest =>
    if name.length > MAX_HEADER_SIZE ∨ value.length > MAX_HEADER_SIZE then
      .error .headerFieldTooLarge
    else validateHeaders rest

/-- The method `SinchMessageCodec::validateMessage` (lines 99-111). -/
def validateMessage (message : Message) : Except EncodeError Unit :=
  if message.headers.size > MAX_HEADERS then .error .tooManyHeaders
  else if message.payload.length > MAX_PAYLOAD_SIZE then .error .payloadTooLarge
  else validateHeaders message.headers.entries

/-- The first loop of `encode` (lines 34-43), from the state
`(headerSizes, headerContent)`. -/
def collectHeaders : List (Bytes × Bytes) → List Nat × Bytes → List Nat × Bytes
  | [], acc => acc
  | (name, value) :: rest, (headerSizes, headerContent) =>
    collectHeaders rest
      (headerSizes ++ [toU16 name.length] ++ [toU16 value.length],
       headerContent ++ name ++ value)

/-- The second loop of `encode` (lines 48-51): every size, low byte first. -/
def emitSizes : List Nat → Bytes → Bytes
  | [], encoded => encoded
  | size :: rest, encoded =>
    emitSizes rest (encoded ++ [toU8 (size &&& 0xFF)] ++ [toU8 ((size >>> 8) &&& 0xFF)])

/-- The method `SinchMessageCodec::encode` (lines 28-57). -/
def encode (message : Message) : Except EncodeError Bytes :=
  match validateMessage message with
  | .error e => .error e
  | .ok () =>
    let (headerSizes, headerContent) := collectHeaders message.headers.entries ([], [])
    let encoded : Bytes := [toU8 message.headers.size]
    let encoded := emitSizes headerSizes encoded
    .ok (encoded ++ headerContent ++ message.payload)

/-! ## `decode` -/

/-- The iterator range `[data.begin() + first, data.begin() + last)`, when it
lies inside `data`. -/
def slice (data : Bytes) (first last : Nat) : Option Bytes :=
  if first ≤ last ∧ last ≤ data.length then some ((data.drop first).take (last - first))
  else none

/-- The first loop of `decode` (lines 72-79), with `n` iterations left. -/
def readHeaderSizes (data : Bytes) : Nat → Nat → List Nat → Except DecodeError (List Nat × Nat)
  | 0, offset, headerSizes => .ok (headerSizes, offset)
  | n + 1, offset, headerSizes =>
    if offset + 2 > data.length then .error .incompleteHeaderSizeData
    else
      match data[offset]?, data[offset + 1]? with
      | some lo, some hi =>
        readHeaderSizes data n (offset + 2) (headerSizes ++ [toU16 (lo.val ||| (hi.val <<< 8))])
      | _, _ => .error .outOfBounds

/-- The second loop of `decode` (lines 82-92), with `n` iterations left, at
index `i`. -/
def readHeaders (data : Bytes) (headerSizes : List Nat) :
    Nat → Nat → Nat → HeaderMap → Except DecodeError (HeaderMap × Nat)
  | 0, _, offset, headers => .ok (headers, offset)
  | n + 1, i, offset, headers =>
    match headerSizes[i * 2]?, headerSizes[i * 2 + 1]? with
    | some nameLen, some valueLen =>
      if offset + nameLen + valueLen > data.length then .error .incompleteHeaderData
      else
        match slice data offset (offset + nameLen),
              slice data (offset + nameLen) (offset + nameLen + valueLen) with
        | some name, some value =>
          readHeaders data headerSizes n (i + 1) (offset + nameLen + valueLen)
            (headers.assign name value)
        | _, _ => .error .outOfBounds
    | _, _ => .error .outOfBounds

/-- The method `SinchMessageCodec::decode` (lines 59-96). -/
def decode (data : Bytes) : Except DecodeError Message :=
  if data.isEmpty then .error .emptyData
  else
    match data[0]? with
    | none => .error .outOfBounds
    | some headerCount =>
      if headerCount.val > MAX_HEADERS then .error .invalidHeaderCount
      else
        match readHeaderSizes data (headerCount.val * 2) 1 [] with
        | .error e => .error e
        | .ok (headerSizes, offset) =>
          match readHeaders data headerSizes headerCount.val 0 offset HeaderMap.empty with
          | .error e => .error e
          | .ok (headers, offset) =>
            match slice data offset data.length with
            | none => .error .outOfBounds
            | some payload => .ok ⟨headers, payload⟩

/-! ## The message of `main` -/

/-- The text "Content-Type". -/
def contentType : Bytes := [67, 111, 110, 116, 101, 110, 116, 45, 84, 121, 112, 101]

/-- The text "application/json". -/
def applicationJson : Bytes :=
  [97, 112, 112, 108, 105, 99, 97, 116, 105, 111, 110, 47, 106, 115, 111, 110]

/-- The text "X-Request-Id". -/
def xRequestId : Bytes := [88, 45, 82, 101, 113, 117, 101, 115, 116, 45, 73, 100]

/-- The text "12345". -/
def requestId : Bytes := [49, 50, 51, 52, 53]

/-- The 15 bytes of the text `payloadStr` of `main`. -/
def payloadStr : Bytes := [123, 34, 107, 101, 121, 34, 58, 34, 118, 97, 108, 117, 101, 34, 125]

/-- The message `main` builds (lines 120-124). -/
def mainMessage : Message :=
  ⟨(HeaderMap.empty.assign contentType applicationJson).assign xRequestId requestId, payloadStr⟩

/-! ## Vocabulary of the properties -/

/-- The limits of the format, as `validateMessage` tests them. -/
def Message.valid (m : Message) : Prop :=
  m.headers.size ≤ 63 ∧
  (∀ p ∈ m.headers.entries, p.1.length ≤ 1023 ∧ p.2.length ≤ 1023) ∧
  m.payload.length ≤ 262144

instance (m : Message) : Decidable m.valid := by
  unfold Message.valid; exact inferInstance

/-- The map after `headers[name] = value` for every pair of a list, in order. -/
def assignAll (h : HeaderMap) (ps : List (Bytes × Bytes)) : HeaderMap :=
  ps.foldl (fun acc p => acc.assign p.1 p.2) h

/-- The size table as `encode` collects it: name length, value length. -/
def sizesOf (hs : List (Bytes × Bytes)) : List Nat :=
  hs.flatMap fun p => [toU16 p.1.length, toU16 p.2.length]

/-- The content region: every name followed by its value. -/
def contentOf (hs : List (Bytes × Bytes)) : Bytes :=
  hs.flatMap fun p => p.1 ++ p.2

/-- The bytes of a list of 16-bit sizes, low byte first. -/
def sizeBytes (sizes : List Nat) : Bytes :=
  sizes.flatMap fun s => [toU8 (s &&& 0xFF), toU8 ((s >>> 8) &&& 0xFF)]

/-- The bytes `encode` returns for a message within the limits. -/
def wire (m : Message) : Bytes :=
  [toU8 m.headers.size] ++ sizeBytes (sizesOf m.headers.entries)
    ++ contentOf m.headers.entries ++ m.payload

/-- The four bytes of one size-table entry, as numbers. -/
def sizeEntry (p : Bytes × Bytes) : List Nat :=
  [p.1.length % 256, p.1.length / 256, p.2.length % 256, p.2.length / 256]

/-- The byte of `data` at index `i`, as a number (0 outside `data`). -/
def byteAt (data : Bytes) (i : Nat) : Nat := (data[i]?.getD 0).val

/-- The 16-bit little-endian number at `offset`: low byte + 256 * high byte. -/
def u16At (data : Bytes) (offset : Nat) : Nat :=
  byteAt data offset + 256 * byteAt data (offset + 1)

/-- The `n` consecutive 16-bit numbers that start at `offset`. -/
def sizesFrom (data : Bytes) (offset n : Nat) : List Nat :=
  (List.range n).map fun j => u16At data (offset + 2 * j)

/-- The declared lengths `s_0 .. s_{2c-1}` of a buffer with count byte `c`:
the size table starts at offset 1. -/
def declaredSizes (data : Bytes) (c : Nat) : List Nat := sizesFrom data 1 (2 * c)

/-- The sum of the declared lengths of a buffer with count byte `c`. -/
def declaredTotal (data : Bytes) (c : Nat) : Nat := (declaredSizes data c).sum

/-- The name/value pairs sliced by a cursor that starts at `offset` and
advances by each length of `sizes`, taken two at a time. -/
def slicedHeaders (data : Bytes) : List Nat → Nat → List (Bytes × Bytes)
  | nameLen :: valueLen :: rest, offset =>
    ((data.drop offset).take nameLen, (data.drop (offset + nameLen)).take valueLen)
      :: slicedHeaders data rest (offset + nameLen + valueLen)
  | _, _ => []

/-- The offset at which the payload starts: count byte, size table, contents. -/
def payloadOffset (data : Bytes) : Nat :=
  1 + 4 * byteAt data 0 + declaredTotal data (byteAt data 0)

/-- The headers `decode` builds from a buffer that it accepts. -/
def decodedHeaders (data : Bytes) : HeaderMap :=
  assignAll HeaderMap.empty
    (slicedHeaders data (declaredSizes data (byteAt data 0)) (1 + 4 * byteAt data 0))

/-- The value an entry list holds for `name`, if any: what `find` on the
`std::map` reports. -/
def lookupEntry (name : Bytes) : List (Bytes × Bytes) → Option Bytes
  | [] => none
  | (k, v) :: rest => if k = name then some v else lookupEntry name rest

/-- The value a `std::map` holds for `name`, if any. -/
def HeaderMap.lookup (h : HeaderMap) (name : Bytes) : Option Bytes :=
  lookupEntry name h.entries

/-- The value of the last pair of a list that carries `name`, if any. -/
def lastValue (name : Bytes) : List (Bytes × Bytes) → Option Bytes
  | [] => none
  | (k, v) :: rest =>
    match lastValue name rest with
    | some w => some w
    | none => if k = name then some v else none

/-- The cursor before header `i`: the start `offset` advanced by the first
`2 * i` lengths. -/
def cursorAt (sizes : List Nat) (offset i : Nat) : Nat := offset + (sizes.take (2 * i)).sum

/-- A message with one header, whose name has 1024 bytes, and no payload. -/
def longNameMessage : Message :=
  ⟨HeaderMap.empty.assign (List.replicate 1024 0) [], []⟩

/-- A message with no header and a payload of 262145 bytes. -/
def longPayloadMessage : Message := ⟨HeaderMap.empty, List.replicate 262145 0⟩

/-- A message with one header, whose name has 1024 bytes, and a payload of
262145 bytes. -/
def longNameLongPayloadMessage : Message :=
  ⟨HeaderMap.empty.assign (List.replicate 1024 0) [], List.replicate 262145 0⟩

/-- Sixty-four pairs with distinct names of 1025 bytes and empty values. -/
def manyLongNames : List (Bytes × Bytes) :=
  (List.range 64).map fun i => (List.replicate 1024 0 ++ [toU8 i], [])

/-- A message with 64 headers, each with a name of 1025 bytes, and no
payload. -/
def manyLongNamesMessage : Message := ⟨assignAll HeaderMap.empty manyLongNames, []⟩

/-! ## Arithmetic of the size fields -/

/-- The low byte `size & 0xFF`. -/
theorem and_0xFF (s : Nat) : s &&& 0xFF = s % 256 :=
  Nat.and_pow_two_sub_one_eq_mod s 8

/-- The high byte `(size >> 8) & 0xFF`. -/
theorem shiftRight_and_0xFF (s : Nat) : (s >>> 8) &&& 0xFF = s / 256 % 256 := by
  rw [and_0xFF, Nat.shiftRight_eq_div_pow]

/-- The 16-bit value read from a low byte and a high byte. -/
theorem toU16_or_shiftLeft (lo hi : Byte) :
    toU16 (lo.val ||| (hi.val <<< 8)) = lo.val + 256 * hi.val := by
  have hlo : lo.val < 2 ^ 8 := lo.isLt
  have hhi := hi.isLt
  have h := Nat.mul_add_lt_is_or hlo hi.val
  rw [Nat.shiftLeft_eq, Nat.or_comm, Nat.mul_comm, ← h]
  unfold toU16
  omega

/-- The value of a byte made by `toU8`. -/
theorem toU8_val (n : Nat) : (toU8 n).val = n % 256 := rfl

/-- A 16-bit value is read back from the two bytes `emitSizes` writes for it. -/
theorem toU16_emitted (s : Nat) (hs : s < 65536) :
    toU16 ((toU8 (s &&& 0xFF)).val ||| ((toU8 ((s >>> 8) &&& 0xFF)).val <<< 8)) = s := by
  rw [toU16_or_shiftLeft, toU8_val, toU8_val, and_0xFF, shiftRight_and_0xFF]
  omega

/-! ## The output of `encode` -/

theorem collectHeaders_eq (hs : List (Bytes × Bytes)) :
    ∀ (acc : List Nat × Bytes),
      collectHeaders hs acc = (acc.1 ++ sizesOf hs, acc.2 ++ contentOf hs) := by
  induction hs with
  | nil => intro acc; simp [collectHeaders, sizesOf, contentOf]
  | cons p rest ih =>
    intro acc
    obtain ⟨name, value⟩ := p
    obtain ⟨s, c⟩ := acc
    simp only [collectHeaders, ih]
    simp [sizesOf, contentOf]

theorem emitSizes_eq (sizes : List Nat) :
    ∀ (encoded : Bytes), emitSizes sizes encoded = encoded ++ sizeBytes sizes := by
  induction sizes with
  | nil => intro e; simp [emitSizes, sizeBytes]
  | cons s rest ih =>
    intro e
    simp only [emitSizes, ih]
    simp [sizeBytes]

theorem validateHeaders_ok (hs : List (Bytes × Bytes)) :
    validateHeaders hs = .ok () ↔ ∀ p ∈ hs, p.1.length ≤ 1023 ∧ p.2.length ≤ 1023 := by
  induction hs with
  | nil => simp [validateHeaders]
  | cons p rest ih =>
    obtain ⟨name, value⟩ := p
    simp only [validateHeaders, MAX_HEADER_SIZE, List.forall_mem_cons]
    split_ifs with h
    · constructor
      · intro h'; cases h'
      · intro h'; omega
    · rw [ih]
      constructor
      · intro h'; exact ⟨by omega, h'⟩
      · intro h'; exact h'.2

theorem validateHeaders_error (hs : List (Bytes × Bytes)) (e : EncodeError)
    (h : validateHeaders hs = .error e) : e = .headerFieldTooLarge := by
  induction hs with
  | nil => simp [validateHeaders] at h
  | cons p rest ih =>
    obtain ⟨name, value⟩ := p
    simp only [validateHeaders] at h
    split_ifs at h with h1
    · cases h; rfl
    · exact ih h

theorem validateMessage_ok (m : Message) : validateMessage m = .ok () ↔ m.valid := by
  unfold validateMessage Message.valid
  simp only [MAX_HEADERS, MAX_PAYLOAD_SIZE]
  split_ifs with h1 h2
  · constructor
    · intro h'; cases h'
    · intro h'; omega
  · constructor
    · intro h'; cases h'
    · intro h'; omega
  · rw [validateHeaders_ok]
    constructor
    · intro h'; exact ⟨by omega, h', by omega⟩
    · intro h'; exact h'.2.1

theorem encode_of_valid (m : Message) (h : m.valid) : encode m = .ok (wire m) := by
  unfold encode
  rw [(validateMessage_ok m).2 h]
  simp only [collectHeaders_eq, emitSizes_eq, wire, List.nil_append]

theorem encode_of_not_valid (m : Message) (h : ¬ m.valid) : ∃ e, encode m = .error e := by
  unfold encode
  cases hv : validateMessage m with
  | error e => exact ⟨e, rfl⟩
  | ok u => cases u; exact absurd ((validateMessage_ok m).1 hv) h

/-! ## The result of `decode` -/

theorem sizesFrom_succ (data : Bytes) (offset n : Nat) :
    sizesFrom data offset (n + 1) = u16At data offset :: sizesFrom data (offset + 2) n := by
  unfold sizesFrom
  rw [List.range_succ_eq_map, List.map_cons, List.map_map]
  refine congrArg₂ _ rfl (List.map_congr_left ?_)
  intro j _
  show u16At data (offset + 2 * (j + 1)) = u16At data (offset + 2 + 2 * j)
  congr 1
  omega

theorem sizesFrom_length (data : Bytes) (offset n : Nat) :
    (sizesFrom data offset n).length = n := by
  simp [sizesFrom]

/-- The first loop of `decode` reads the whole table when the buffer holds it. -/
theorem readHeaderSizes_ok (data : Bytes) :
    ∀ (n offset : Nat) (acc : List Nat), offset + 2 * n ≤ data.length →
      readHeaderSizes data n offset acc = .ok (acc ++ sizesFrom data offset n, offset + 2 * n)
  | 0, offset, acc, _ => by simp [readHeaderSizes, sizesFrom]
  | n + 1, offset, acc, h => by
    have h0 : offset < data.length := by omega
    have h1 : offset + 1 < data.length := by omega
    have hnot : ¬ (offset + 2 > data.length) := by omega
    simp only [readHeaderSizes, if_neg hnot, List.getElem?_eq_getElem h0,
      List.getElem?_eq_getElem h1]
    rw [readHeaderSizes_ok data n (offset + 2) _ (by omega), sizesFrom_succ,
      toU16_or_shiftLeft]
    simp only [u16At, byteAt, List.getElem?_eq_getElem h0, List.getElem?_eq_getElem h1,
      Option.getD_some, List.append_assoc, List.singleton_append]
    congr 2
    omega

/-- The first loop of `decode` fails when the buffer ends inside the table. -/
theorem readHeaderSizes_short (data : Bytes) :
    ∀ (n offset : Nat) (acc : List Nat), 0 < n → data.length < offset + 2 * n →
      readHeaderSizes data n offset acc = .error .incompleteHeaderSizeData
  | n + 1, offset, acc, _, h => by
    by_cases hlt : offset + 2 > data.length
    · simp only [readHeaderSizes, if_pos hlt]
    · have h0 : offset < data.length := by omega
      have h1 : offset + 1 < data.length := by omega
      simp only [readHeaderSizes, if_neg hlt, List.getElem?_eq_getElem h0,
        List.getElem?_eq_getElem h1]
      exact readHeaderSizes_short data n (offset + 2) _ (by omega) (by omega)

theorem slice_eq (data : Bytes) (first len : Nat) (h : first + len ≤ data.length) :
    slice data first (first + len) = some ((data.drop first).take len) := by
  unfold slice
  rw [if_pos ⟨by omega, h⟩]
  congr 3
  omega

theorem slice_to_end (data : Bytes) (first : Nat) (h : first ≤ data.length) :
    slice data first data.length = some (data.drop first) := by
  unfold slice
  rw [if_pos ⟨h, Nat.le_refl _⟩]
  congr 1
  exact List.take_of_length_le (by simp)

theorem getElem?_after (done : List Nat) (a b : Nat) (rest : List Nat) (i : Nat)
    (hd : done.length = 2 * i) :
    (done ++ a :: b :: rest)[i * 2]? = some a ∧ (done ++ a :: b :: rest)[i * 2 + 1]? = some b := by
  constructor
  · rw [List.getElem?_append_right (by omega)]
    have : i * 2 - done.length = 0 := by omega
    rw [this]; simp
  · rw [List.getElem?_append_right (by omega)]
    have : i * 2 + 1 - done.length = 1 := by omega
    rw [this]; simp

/-- The second loop of `decode`, once the sizes up to index `2 * i` are
`done` and the ones still to use are `todo`: it runs to the end when the
lengths of `todo` fit the buffer. -/
theorem readHeaders_ok (data : Bytes) :
    ∀ (n : Nat) (done todo : List Nat) (i offset : Nat) (h : HeaderMap),
      done.length = 2 * i → todo.length = 2 * n → offset + todo.sum ≤ data.length →
      readHeaders data (done ++ todo) n i offset h
        = .ok (assignAll h (slicedHeaders data todo offset), offset + todo.sum)
  | 0, done, todo, i, offset, h, _, ht, _ => by
    have : todo = [] := List.length_eq_zero.1 (by omega)
    subst this
    simp [readHeaders, slicedHeaders, assignAll]
  | n + 1, done, todo, i, offset, h, hd, ht, hfit => by
    match todo, ht with
    | nameLen :: valueLen :: rest, ht =>
      simp only [List.length_cons] at ht
      simp only [List.sum_cons] at hfit
      have e0 := (getElem?_after done nameLen valueLen rest i hd).1
      have e1 := (getElem?_after done nameLen valueLen rest i hd).2
      have hnot : ¬ (offset + nameLen + valueLen > data.length) := by omega
      have hstep := readHeaders_ok data n (done ++ [nameLen, valueLen]) rest (i + 1)
        (offset + nameLen + valueLen)
        (h.assign ((data.drop offset).take nameLen)
          ((data.drop (offset + nameLen)).take valueLen))
        (by simp; omega) (by omega) (by omega)
      simp only [List.append_assoc, List.cons_append, List.nil_append] at hstep
      simp only [readHeaders, e0, e1, if_neg hnot,
        slice_eq data offset nameLen (by omega),
        slice_eq data (offset + nameLen) valueLen (by omega), hstep]
      simp only [slicedHeaders, assignAll, List.foldl_cons, List.sum_cons]
      congr 2
      omega

/-- The second loop of `decode` fails when the lengths still to use exceed
the bytes left. -/
theorem readHeaders_short (data : Bytes) :
    ∀ (n : Nat) (done todo : List Nat) (i offset : Nat) (h : HeaderMap),
      done.length = 2 * i → todo.length = 2 * n → offset ≤ data.length →
      data.length < offset + todo.sum →
      readHeaders data (done ++ todo) n i offset h = .error .incompleteHeaderData
  | 0, done, todo, i, offset, h, _, ht, hle, hfit => by
    have : todo = [] := List.length_eq_zero.1 (by omega)
    subst this
    simp only [List.sum_nil] at hfit
    omega
  | n + 1, done, todo, i, offset, h, hd, ht, hle, hfit => by
    match todo, ht with
    | nameLen :: valueLen :: rest, ht =>
      simp only [List.length_cons] at ht
      simp only [List.sum_cons] at hfit
      have e0 := (getElem?_after done nameLen valueLen rest i hd).1
      have e1 := (getElem?_after done nameLen valueLen rest i hd).2
      by_cases hlt : offset + nameLen + valueLen > data.length
      · simp only [readHeaders, e0, e1, if_pos hlt]
      · have hstep := readHeaders_short data n (done ++ [nameLen, valueLen]) rest (i + 1)
          (offset + nameLen + valueLen)
          (h.assign ((data.drop offset).take nameLen)
            ((data.drop (offset + nameLen)).take valueLen))
          (by simp; omega) (by omega) (by omega) (by omega)
        simp only [List.append_assoc, List.cons_append, List.nil_append] at hstep
        simp only [readHeaders, e0, e1, if_neg hlt,
          slice_eq data offset nameLen (by omega),
          slice_eq data (offset + nameLen) valueLen (by omega), hstep]

theorem decode_nil : decode [] = .error .emptyData := rfl

theorem byteAt_cons_zero (b : Byte) (tl : Bytes) : byteAt (b :: tl) 0 = b.val := by
  simp [byteAt]

/-- The table loop of `decode` on a buffer that holds its whole size table. -/
theorem readHeaderSizes_table (data : Bytes) (c : Nat) (hlen : 1 + 4 * c ≤ data.length) :
    readHeaderSizes data (c * 2) 1 [] = .ok (declaredSizes data c, 1 + 4 * c) := by
  rw [readHeaderSizes_ok data (c * 2) 1 [] (by omega), List.nil_append, Nat.mul_comm c 2]
  have hoff : 1 + 2 * (2 * c) = 1 + 4 * c := by omega
  rw [hoff]
  rfl

theorem decode_count_too_big (data : Bytes) (hne : data ≠ []) (hc : 63 < byteAt data 0) :
    decode data = .error .invalidHeaderCount := by
  match data, hne with
  | b :: tl, _ =>
    rw [byteAt_cons_zero] at hc
    have hb : b.val > MAX_HEADERS := hc
    simp only [decode, List.isEmpty_cons, Bool.false_eq_true, if_false,
      List.getElem?_cons_zero, if_pos hb]

theorem decode_table_short (data : Bytes) (hne : data ≠ []) (hc : byteAt data 0 ≤ 63)
    (hlen : data.length < 1 + 4 * byteAt data 0) :
    decode data = .error .incompleteHeaderSizeData := by
  match data, hne with
  | b :: tl, _ =>
    rw [byteAt_cons_zero] at hc hlen
    have hb : ¬ (b.val > MAX_HEADERS) := Nat.not_lt.2 hc
    have hpos : 0 < b.val * 2 := by
      simp only [List.length_cons] at hlen
      omega
    simp only [decode, List.isEmpty_cons, Bool.false_eq_true, if_false,
      List.getElem?_cons_zero, if_neg hb,
      readHeaderSizes_short (b :: tl) (b.val * 2) 1 [] hpos (by omega)]

theorem decode_content_short (data : Bytes) (hne : data ≠ []) (hc : byteAt data 0 ≤ 63)
    (hlen : 1 + 4 * byteAt data 0 ≤ data.length) (hsum : data.length < payloadOffset data) :
    decode data = .error .incompleteHeaderData := by
  match data, hne with
  | b :: tl, _ =>
    unfold payloadOffset declaredTotal at hsum
    rw [byteAt_cons_zero] at hc hlen hsum
    have hb : ¬ (b.val > MAX_HEADERS) := Nat.not_lt.2 hc
    have hloop := readHeaders_short (b :: tl) b.val [] (declaredSizes (b :: tl) b.val) 0
      (1 + 4 * b.val) HeaderMap.empty rfl (sizesFrom_length _ _ _) hlen hsum
    simp only [List.nil_append] at hloop
    simp only [decode, List.isEmpty_cons, Bool.false_eq_true, if_false,
      List.getElem?_cons_zero, if_neg hb, readHeaderSizes_table (b :: tl) b.val hlen, hloop]

theorem decode_fits (data : Bytes) (hne : data ≠ []) (hc : byteAt data 0 ≤ 63)
    (hsum : payloadOffset data ≤ data.length) :
    decode data = .ok ⟨decodedHeaders data, data.drop (payloadOffset data)⟩ := by
  match data, hne with
  | b :: tl, _ =>
    unfold decodedHeaders
    unfold payloadOffset declaredTotal at hsum ⊢
    rw [byteAt_cons_zero] at hc hsum ⊢
    have hb : ¬ (b.val > MAX_HEADERS) := Nat.not_lt.2 hc
    have hloop := readHeaders_ok (b :: tl) b.val [] (declaredSizes (b :: tl) b.val) 0
      (1 + 4 * b.val) HeaderMap.empty rfl (sizesFrom_length _ _ _) hsum
    simp only [List.nil_append] at hloop
    simp only [decode, List.isEmpty_cons, Bool.false_eq_true, if_false,
      List.getElem?_cons_zero, if_neg hb,
      readHeaderSizes_table (b :: tl) b.val (by omega), hloop, slice_to_end (b :: tl) _ hsum]

/-- Whenever `decode` returns a message, the buffer is non-empty, its count
byte is at most 63, everything declared fits, and the message is the one
built from the sliced headers and the rest of the buffer. -/
theorem decode_ok_inv (data : Bytes) (m : Message) (h : decode data = .ok m) :
    data ≠ [] ∧ byteAt data 0 ≤ 63 ∧ payloadOffset data ≤ data.length ∧
      m = ⟨decodedHeaders data, data.drop (payloadOffset data)⟩ := by
  by_cases hne : data = []
  · subst hne; rw [decode_nil] at h; cases h
  by_cases hc : 63 < byteAt data 0
  · rw [decode_count_too_big data hne hc] at h; cases h
  have hc' : byteAt data 0 ≤ 63 := Nat.not_lt.1 hc
  by_cases hlen : data.length < 1 + 4 * byteAt data 0
  · rw [decode_table_short data hne hc' hlen] at h; cases h
  by_cases hsum : data.length < payloadOffset data
  · rw [decode_content_short data hne hc' (by omega) hsum] at h; cases h
  rw [decode_fits data hne hc' (by omega)] at h
  exact ⟨hne, hc', by omega, (Except.ok.inj h).symm⟩

/-! ## `decode` on the output of `encode` -/

theorem HeaderMap.ext_entries (a b : HeaderMap) (h : a.entries = b.entries) : a = b := by
  cases a; cases b; simp only [HeaderMap.mk.injEq]; exact h

theorem byteAt_append_cons (pre : Bytes) (a : Byte) (tl : Bytes) :
    byteAt (pre ++ a :: tl) pre.length = a.val := by
  unfold byteAt
  rw [List.getElem?_append_right (Nat.le_refl _), Nat.sub_self]
  simp

theorem u16At_append (pre : Bytes) (a b : Byte) (tl : Bytes) :
    u16At (pre ++ a :: b :: tl) pre.length = a.val + 256 * b.val := by
  unfold u16At
  rw [byteAt_append_cons]
  have h := byteAt_append_cons (pre ++ [a]) b tl
  simp only [List.append_assoc, List.singleton_append, List.length_append,
    List.length_singleton] at h
  rw [h]

/-- Reading back the size table that `emitSizes` wrote. -/
theorem sizesFrom_sizeBytes (sizes : List Nat) :
    ∀ (pre rest : Bytes), (∀ s ∈ sizes, s < 65536) →
      sizesFrom (pre ++ sizeBytes sizes ++ rest) pre.length sizes.length = sizes := by
  induction sizes with
  | nil => intro pre rest _; simp [sizesFrom]
  | cons s tl ih =>
    intro pre rest hlt
    have hs : s < 65536 := hlt s (List.mem_cons_self _ _)
    have htl : ∀ t ∈ tl, t < 65536 := fun t ht => hlt t (List.mem_cons_of_mem _ ht)
    have hih := ih (pre ++ [toU8 (s &&& 0xFF), toU8 ((s >>> 8) &&& 0xFF)]) rest htl
    have hshape : pre ++ sizeBytes (s :: tl) ++ rest
        = pre ++ toU8 (s &&& 0xFF) :: toU8 ((s >>> 8) &&& 0xFF) :: (sizeBytes tl ++ rest) := by
      simp [sizeBytes]
    have hshape' : pre ++ [toU8 (s &&& 0xFF), toU8 ((s >>> 8) &&& 0xFF)] ++ sizeBytes tl ++ rest
        = pre ++ toU8 (s &&& 0xFF) :: toU8 ((s >>> 8) &&& 0xFF) :: (sizeBytes tl ++ rest) := by
      simp
    have hlen : (pre ++ [toU8 (s &&& 0xFF), toU8 ((s >>> 8) &&& 0xFF)]).length
        = pre.length + 2 := by simp
    rw [hshape', hlen] at hih
    rw [List.length_cons, sizesFrom_succ, hshape, hih, u16At_append]
    have hval := toU16_emitted s hs
    rw [toU16_or_shiftLeft] at hval
    rw [hval]

theorem sizesOf_lt (hs : List (Bytes × Bytes)) : ∀ s ∈ sizesOf hs, s < 65536 := by
  intro s hmem
  simp only [sizesOf, List.mem_flatMap, List.mem_cons, List.mem_singleton,
    List.not_mem_nil, or_false] at hmem
  obtain ⟨p, _, h | h⟩ := hmem <;> (rw [h]; exact Nat.mod_lt _ (by decide))

theorem sizesOf_length (hs : List (Bytes × Bytes)) : (sizesOf hs).length = 2 * hs.length := by
  induction hs with
  | nil => rfl
  | cons p tl ih =>
    simp only [sizesOf, List.flatMap_cons, List.length_append, List.length_cons,
      List.length_nil] at ih ⊢
    omega

theorem sizeBytes_length (sizes : List Nat) : (sizeBytes sizes).length = 2 * sizes.length := by
  induction sizes with
  | nil => rfl
  | cons p tl ih =>
    simp only [sizeBytes, List.flatMap_cons, List.length_append, List.length_cons,
      List.length_nil] at ih ⊢
    omega

/-- Within the 16-bit range the declared sizes add up to the content length. -/
theorem sizesOf_sum (hs : List (Bytes × Bytes))
    (hlt : ∀ p ∈ hs, p.1.length < 65536 ∧ p.2.length < 65536) :
    (sizesOf hs).sum = (contentOf hs).length := by
  induction hs with
  | nil => rfl
  | cons p tl ih =>
    have hp := hlt p (List.mem_cons_self _ _)
    have htl := ih fun q hq => hlt q (List.mem_cons_of_mem _ hq)
    simp only [sizesOf, contentOf, List.flatMap_cons, List.sum_append, List.sum_cons,
      List.sum_nil, List.length_append, toU16] at htl ⊢
    rw [htl, Nat.mod_eq_of_lt hp.1, Nat.mod_eq_of_lt hp.2]
    omega

/-- Slicing the content region by the sizes `encode` declared gives back the
headers in their order. -/
theorem slicedHeaders_contentOf (hs : List (Bytes × Bytes)) :
    ∀ (pre rest : Bytes), (∀ p ∈ hs, p.1.length < 65536 ∧ p.2.length < 65536) →
      slicedHeaders (pre ++ contentOf hs ++ rest) (sizesOf hs) pre.length = hs := by
  induction hs with
  | nil => intro pre rest _; simp [sizesOf, slicedHeaders]
  | cons p tl ih =>
    intro pre rest hlt
    obtain ⟨name, value⟩ := p
    have hp := hlt (name, value) (List.mem_cons_self _ _)
    have hih := ih (pre ++ name ++ value) rest fun q hq => hlt q (List.mem_cons_of_mem _ hq)
    have hshape : pre ++ contentOf ((name, value) :: tl) ++ rest
        = pre ++ name ++ value ++ contentOf tl ++ rest := by
      simp [contentOf]
    have hsz : sizesOf ((name, value) :: tl) = name.length :: value.length :: sizesOf tl := by
      simp only [sizesOf, List.flatMap_cons, toU16, Nat.mod_eq_of_lt hp.1,
        Nat.mod_eq_of_lt hp.2, List.cons_append, List.nil_append]
    have hlen : (pre ++ name ++ value).length = pre.length + name.length + value.length := by
      simp only [List.length_append]
    rw [hlen] at hih
    rw [hshape, hsz, slicedHeaders, hih]
    have hname : List.take name.length (List.drop pre.length
        (pre ++ name ++ value ++ contentOf tl ++ rest)) = name := by
      have : pre ++ name ++ value ++ contentOf tl ++ rest
          = pre ++ (name ++ (value ++ contentOf tl ++ rest)) := by simp
      rw [this, List.drop_left, List.take_left]
    have hvalue : List.take value.length (List.drop (pre.length + name.length)
        (pre ++ name ++ value ++ contentOf tl ++ rest)) = value := by
      have : pre ++ name ++ value ++ contentOf tl ++ rest
          = (pre ++ name) ++ (value ++ (contentOf tl ++ rest)) := by simp
      rw [this, List.drop_left' (by simp), List.take_left]
    rw [hname, hvalue]

/-- An entry whose key is above every key of the list goes to the end. -/
theorem insertEntry_above (k v : Bytes) :
    ∀ (l : List (Bytes × Bytes)), (∀ q ∈ l, strLt q.1 k = true) →
      insertEntry k v l = l ++ [(k, v)]
  | [], _ => rfl
  | (k', v') :: rest, h => by
    have h1 : strLt k' k = true := h (k', v') (List.mem_cons_self _ _)
    have h2 : strLt k k' = false := strLt_asymm k' k h1
    simp only [insertEntry, h1, h2, if_true, Bool.false_eq_true, if_false, List.cons_append]
    rw [insertEntry_above k v rest fun q hq => h q (List.mem_cons_of_mem _ hq)]

/-- Assigning entries in ascending key order, all above the keys already in
the map, appends them. -/
theorem assignAll_ascending (ps : List (Bytes × Bytes)) :
    ∀ (h : HeaderMap), (h.entries ++ ps).Pairwise keyLt →
      (assignAll h ps).entries = h.entries ++ ps := by
  induction ps with
  | nil => intro h _; simp [assignAll]
  | cons p tl ih =>
    intro h hasc
    have habove : ∀ q ∈ h.entries, strLt q.1 p.1 = true := by
      intro q hq
      exact (List.pairwise_append.1 hasc).2.2 q hq p (List.mem_cons_self _ _)
    have hstep : (h.assign p.1 p.2).entries = h.entries ++ [p] := by
      show insertEntry p.1 p.2 h.entries = h.entries ++ [p]
      rw [insertEntry_above p.1 p.2 h.entries habove]
    have hasc' : ((h.assign p.1 p.2).entries ++ tl).Pairwise keyLt := by
      rw [hstep, List.append_assoc]; exact hasc
    have := ih (h.assign p.1 p.2) hasc'
    rw [hstep, List.append_assoc] at this
    exact this

/-- Decoding the wire bytes of a message gives the message back as soon as it
has at most 63 headers and every name and value fits a 16-bit length. -/
theorem decode_wire_of_lt (m : Message) (hcount : m.headers.size ≤ 63)
    (hlt : ∀ p ∈ m.headers.entries, p.1.length < 65536 ∧ p.2.length < 65536) :
    decode (wire m) = .ok m := by
  have hsize : m.headers.size = m.headers.entries.length := rfl
  have hwire : wire m = [toU8 m.headers.size] ++ sizeBytes (sizesOf m.headers.entries)
      ++ (contentOf m.headers.entries ++ m.payload) := by
    simp [wire]
  have hwire' : wire m = ([toU8 m.headers.size] ++ sizeBytes (sizesOf m.headers.entries))
      ++ contentOf m.headers.entries ++ m.payload := rfl
  have hc : byteAt (wire m) 0 = m.headers.size := by
    have : wire m = toU8 m.headers.size :: (sizeBytes (sizesOf m.headers.entries)
        ++ contentOf m.headers.entries ++ m.payload) := by simp [wire]
    rw [this, byteAt_cons_zero, toU8_val]
    omega
  have hsizes : declaredSizes (wire m) m.headers.size = sizesOf m.headers.entries := by
    have := sizesFrom_sizeBytes (sizesOf m.headers.entries) [toU8 m.headers.size]
      (contentOf m.headers.entries ++ m.payload) (sizesOf_lt _)
    rw [sizesOf_length, ← hwire] at this
    exact this
  have hpre : ([toU8 m.headers.size] ++ sizeBytes (sizesOf m.headers.entries)).length
      = 1 + 4 * m.headers.size := by
    rw [List.length_append, sizeBytes_length, sizesOf_length, hsize]
    simp only [List.length_singleton]
    omega
  have hoff : payloadOffset (wire m)
      = ([toU8 m.headers.size] ++ sizeBytes (sizesOf m.headers.entries)
          ++ contentOf m.headers.entries).length := by
    unfold payloadOffset declaredTotal
    rw [hc, hsizes, sizesOf_sum _ hlt, List.length_append, hpre]
  have hheaders : decodedHeaders (wire m) = m.headers := by
    apply HeaderMap.ext_entries
    unfold decodedHeaders
    rw [hc, hsizes]
    have := slicedHeaders_contentOf m.headers.entries
      ([toU8 m.headers.size] ++ sizeBytes (sizesOf m.headers.entries)) m.payload hlt
    rw [hpre, ← hwire'] at this
    rw [this, assignAll_ascending]
    · rfl
    · exact m.headers.ascending
  have hpayload : (wire m).drop (payloadOffset (wire m)) = m.payload := by
    rw [hoff, hwire', List.drop_left]
  have hne : wire m ≠ [] := by simp [wire]
  have hfit : payloadOffset (wire m) ≤ (wire m).length := by
    rw [hoff, hwire']
    simp only [List.length_append]
    omega
  rw [decode_fits (wire m) hne (by rw [hc]; exact hcount) hfit, hheaders, hpayload]

/-- Decoding what `encode` returns for a message within the limits gives the
message back. -/
theorem decode_wire (m : Message) (h : m.valid) : decode (wire m) = .ok m := by
  obtain ⟨hcount, hfields, _⟩ := h
  refine decode_wire_of_lt m hcount ?_
  intro p hp
  have := hfields p hp
  omega

theorem Message.opEq_iff (a b : Message) : a.opEq b = true ↔ a = b := by
  obtain ⟨⟨ea, ha⟩, pa⟩ := a
  obtain ⟨⟨eb, hb⟩, pb⟩ := b
  simp [Message.opEq]

/-! ## Round trip and acceptance -/

/-- C1. Round trip: for every message within the three limits (at most 63
headers, names and values of at most 1023 bytes, a payload of at most 262144
bytes) `encode` returns bytes, and `decode` of those bytes returns the same
message, which `operator==` reports equal. -/
theorem decode_encode_roundtrip (m : Message) (h : m.valid) :
    ∃ bs, encode m = .ok bs ∧ decode bs = .ok m ∧
      ∀ m', decode bs = .ok m' → m.opEq m' = true := by
  refine ⟨wire m, encode_of_valid m h, decode_wire m h, ?_⟩
  intro m' hm'
  rw [decode_wire m h] at hm'
  exact (Message.opEq_iff m m').2 (Except.ok.inj hm')

set_option maxRecDepth 100000 in
/-- C1 at the message of `main`: two headers and the 15-byte payload. -/
theorem decode_encode_roundtrip_main :
    mainMessage.valid ∧ mainMessage.headers.size = 2 ∧ mainMessage.payload.length = 15 ∧
      ∃ bs, encode mainMessage = .ok bs ∧ decode bs = .ok mainMessage ∧
        ∀ m', decode bs = .ok m' → mainMessage.opEq m' = true :=
  ⟨by decide, by decide, by decide, decode_encode_roundtrip mainMessage (by decide)⟩

/-- C2. Acceptance by `encode` is exactly the three limits: bytes are returned
if and only if the message has at most 63 headers, every name and value has at
most 1023 bytes and the payload has at most 262144 bytes; otherwise an error
is returned, and no bytes. -/
theorem encode_ok_iff_limits (m : Message) :
    ((∃ bs, encode m = .ok bs) ↔
      (m.headers.size ≤ 63 ∧
        (∀ p ∈ m.headers.entries, p.1.length ≤ 1023 ∧ p.2.length ≤ 1023) ∧
        m.payload.length ≤ 262144)) ∧
    ((∃ e, encode m = .error e) ↔
      (64 ≤ m.headers.size ∨
        (∃ p ∈ m.headers.entries, 1024 ≤ p.1.length ∨ 1024 ≤ p.2.length) ∨
        262145 ≤ m.payload.length)) := by
  by_cases hv : m.valid
  · have hok := encode_of_valid m hv
    obtain ⟨h1, h2, h3⟩ := hv
    refine ⟨⟨fun _ => ⟨h1, h2, h3⟩, fun _ => ⟨wire m, hok⟩⟩, ⟨?_, ?_⟩⟩
    · rintro ⟨e, he⟩
      rw [hok] at he
      cases he
    · rintro (h | ⟨p, hp, h⟩ | h)
      · omega
      · have := h2 p hp
        omega
      · omega
  · obtain ⟨e, he⟩ := encode_of_not_valid m hv
    refine ⟨⟨?_, fun h => absurd h hv⟩, ⟨fun _ => ?_, fun _ => ⟨e, he⟩⟩⟩
    · rintro ⟨bs, hbs⟩
      rw [he] at hbs
      cases hbs
    · by_contra hcon
      apply hv
      simp only [not_or, not_exists, not_and, Nat.not_le] at hcon
      refine ⟨by omega, ?_, by omega⟩
      intro p hp
      have := hcon.2.1 p hp
      omega

/-! ## Wire layout -/

theorem sizeBytes_sizesOf_val (hs : List (Bytes × Bytes))
    (hlim : ∀ p ∈ hs, p.1.length ≤ 1023 ∧ p.2.length ≤ 1023) :
    (sizeBytes (sizesOf hs)).map Fin.val = hs.flatMap sizeEntry := by
  induction hs with
  | nil => rfl
  | cons p tl ih =>
    have hp := hlim p (List.mem_cons_self _ _)
    have htl := ih fun q hq => hlim q (List.mem_cons_of_mem _ hq)
    have hcons : sizeBytes (sizesOf (p :: tl))
        = [toU8 (toU16 p.1.length &&& 0xFF), toU8 ((toU16 p.1.length >>> 8) &&& 0xFF),
            toU8 (toU16 p.2.length &&& 0xFF), toU8 ((toU16 p.2.length >>> 8) &&& 0xFF)]
          ++ sizeBytes (sizesOf tl) := by
      simp [sizeBytes, sizesOf]
    rw [hcons, List.map_append, htl, List.flatMap_cons]
    congr 1
    have hshift : ∀ n : Nat, n >>> 8 = n / 256 := fun n => Nat.shiftRight_eq_div_pow n 8
    simp only [List.map_cons, List.map_nil, toU8_val, and_0xFF, hshift, toU16, sizeEntry]
    have h1 : p.1.length % 65536 = p.1.length := Nat.mod_eq_of_lt (by omega)
    have h2 : p.2.length % 65536 = p.2.length := Nat.mod_eq_of_lt (by omega)
    rw [h1, h2]
    have h3 : p.1.length / 256 % 256 = p.1.length / 256 := Nat.mod_eq_of_lt (by omega)
    have h4 : p.2.length / 256 % 256 = p.2.length / 256 := Nat.mod_eq_of_lt (by omega)
    simp only [Nat.mod_mod]
    rw [h3, h4]

/-- C3. Wire layout: for a message within the limits, whose headers in
strictly ascending order of name are `m.headers.entries`, `encode` returns
the byte `k` (the number of headers), then for every header the four bytes
`len n mod 256, len n div 256, len v mod 256, len v div 256`, then for every
header its name followed by its value, then the payload unchanged. -/
theorem encode_wire_layout (m : Message) (h : m.valid) :
    m.headers.entries.Pairwise (fun a b => strLt a.1 b.1 = true) ∧
    ∃ bs, encode m = .ok bs ∧
      bs.map Fin.val
        = [m.headers.entries.length]
          ++ m.headers.entries.flatMap sizeEntry
          ++ (m.headers.entries.flatMap fun p => p.1 ++ p.2).map Fin.val
          ++ m.payload.map Fin.val := by
  refine ⟨m.headers.ascending, wire m, encode_of_valid m h, ?_⟩
  obtain ⟨hcount, hfields, _⟩ := h
  have hk : (toU8 m.headers.size).val = m.headers.entries.length := by
    rw [toU8_val]
    exact Nat.mod_eq_of_lt (by unfold HeaderMap.size at hcount ⊢; omega)
  simp only [wire, List.map_append, List.map_cons, List.map_nil, hk,
    sizeBytes_sizesOf_val _ hfields, contentOf]

set_option maxRecDepth 100000 in
/-- C3 at the message of `main`: the 69 bytes of its encoding. -/
theorem encode_wire_layout_main :
    mainMessage.valid ∧
    (mainMessage.headers.entries.Pairwise (fun a b => strLt a.1 b.1 = true) ∧
    ∃ bs, encode mainMessage = .ok bs ∧
      bs.map Fin.val
        = [2] ++ [12, 0, 16, 0, 12, 0, 5, 0]
          ++ (contentType ++ applicationJson ++ xRequestId ++ requestId).map Fin.val
          ++ payloadStr.map Fin.val) :=
  ⟨by decide, encode_wire_layout mainMessage (by decide)⟩

/-! ## Rejection and acceptance by `decode` -/

/-- C5. Truncation: a non-empty buffer with count byte `c ≤ 63` is rejected
when it is shorter than `1 + 4 * c` bytes (the size table is incomplete), and
when it holds the table but the declared lengths add up to more than the bytes
that follow offset `1 + 4 * c`. -/
theorem decode_truncated (data : Bytes) (hne : data ≠ []) (hc : byteAt data 0 ≤ 63) :
    (data.length < 1 + 4 * byteAt data 0 →
      decode data = .error .incompleteHeaderSizeData) ∧
    (1 + 4 * byteAt data 0 ≤ data.length →
      data.length - (1 + 4 * byteAt data 0) < (declaredSizes data (byteAt data 0)).sum →
      decode data = .error .incompleteHeaderData) := by
  refine ⟨decode_table_short data hne hc, ?_⟩
  intro hlen hsum
  apply decode_content_short data hne hc hlen
  unfold payloadOffset declaredTotal
  omega

/-- C5 on a lone count byte 1, on a table cut short, and on a table that
declares two content bytes where one is present. -/
theorem decode_truncated_examples :
    decode [1] = .error .incompleteHeaderSizeData ∧
    decode [1, 1, 0, 1] = .error .incompleteHeaderSizeData ∧
    decode [1, 1, 0, 1, 0, 65] = .error .incompleteHeaderData :=
  ⟨(decode_truncated [1] (by decide) (by decide)).1 (by decide),
   (decode_truncated [1, 1, 0, 1] (by decide) (by decide)).1 (by decide),
   (decode_truncated [1, 1, 0, 1, 0, 65] (by decide) (by decide)).2 (by decide) (by decide)⟩

/-- C6. Acceptance: a non-empty buffer with count byte `c ≤ 63` that holds its
size table and in which `1 + 4 * c` plus the sum of the `2 * c` declared
lengths is at most the buffer length is decoded; no other limit applies. -/
theorem decode_accepts_fitting (data : Bytes) (hne : data ≠ []) (hc : byteAt data 0 ≤ 63)
    (_hlen : 1 + 4 * byteAt data 0 ≤ data.length)
    (hfit : 1 + 4 * byteAt data 0 + (declaredSizes data (byteAt data 0)).sum ≤ data.length) :
    ∃ m, decode data = .ok m :=
  ⟨_, decode_fits data hne hc hfit⟩

/-- C6 on a buffer with one header `A: B` and the payload byte 7. -/
theorem decode_accepts_fitting_example :
    ∃ m, decode [1, 1, 0, 1, 0, 65, 66, 7] = .ok m :=
  decode_accepts_fitting [1, 1, 0, 1, 0, 65, 66, 7] (by decide) (by decide) (by decide)
    (by decide)

/-- C7. The empty buffer gives the "Empty data." error, and no other buffer
does. -/
theorem decode_emptyData_iff (data : Bytes) :
    decode data = .error .emptyData ↔ data = [] := by
  constructor
  · intro h
    by_contra hne
    by_cases hc : 63 < byteAt data 0
    · rw [decode_count_too_big data hne hc] at h; cases h
    have hc' : byteAt data 0 ≤ 63 := Nat.not_lt.1 hc
    by_cases hlen : data.length < 1 + 4 * byteAt data 0
    · rw [decode_table_short data hne hc' hlen] at h; cases h
    by_cases hsum : data.length < payloadOffset data
    · rw [decode_content_short data hne hc' (by omega) hsum] at h; cases h
    rw [decode_fits data hne hc' (by omega)] at h
    cases h
  · intro h
    rw [h]
    rfl

/-- C8. The "Invalid header count." error is given exactly by the non-empty
buffers whose first byte is greater than 63, whatever follows that byte. -/
theorem decode_invalidHeaderCount_iff (data : Bytes) :
    decode data = .error .invalidHeaderCount ↔ data ≠ [] ∧ 63 < byteAt data 0 := by
  constructor
  · intro h
    by_cases hne : data = []
    · subst hne; rw [decode_nil] at h; cases h
    by_cases hc : 63 < byteAt data 0
    · exact ⟨hne, hc⟩
    have hc' : byteAt data 0 ≤ 63 := Nat.not_lt.1 hc
    by_cases hlen : data.length < 1 + 4 * byteAt data 0
    · rw [decode_table_short data hne hc' hlen] at h; cases h
    by_cases hsum : data.length < payloadOffset data
    · rw [decode_content_short data hne hc' (by omega) hsum] at h; cases h
    rw [decode_fits data hne hc' (by omega)] at h
    cases h
  · rintro ⟨hne, hc⟩
    exact decode_count_too_big data hne hc

/-- C9. Zero headers and zero payload: `encode` of the message with no header
and an empty payload returns the single byte 0, and `decode` of the single
byte 0 returns that message. -/
theorem encode_decode_empty_message :
    encode ⟨HeaderMap.empty, []⟩ = .ok [0] ∧ decode [0] = .ok ⟨HeaderMap.empty, []⟩ :=
  ⟨rfl, rfl⟩

/-- C10. The payload is the remainder: when `decode` accepts a buffer with
count byte `c`, the payload is the suffix of the buffer from offset
`1 + 4 * c` plus the sum of the `2 * c` declared lengths; its length is the
buffer length minus that offset, and it is empty exactly when the offset is
the buffer length. -/
theorem decode_payload_is_remainder (data : Bytes) (m : Message) (h : decode data = .ok m) :
    m.payload
        = data.drop (1 + 4 * byteAt data 0 + (declaredSizes data (byteAt data 0)).sum) ∧
    m.payload.length
        = data.length - (1 + 4 * byteAt data 0 + (declaredSizes data (byteAt data 0)).sum) ∧
    (m.payload = [] ↔
      1 + 4 * byteAt data 0 + (declaredSizes data (byteAt data 0)).sum = data.length) := by
  obtain ⟨_, _, hfit, hm⟩ := decode_ok_inv data m h
  have hp : m.payload = data.drop (payloadOffset data) := by rw [hm]
  unfold payloadOffset declaredTotal at hp hfit
  refine ⟨hp, by rw [hp, List.length_drop], ?_⟩
  rw [hp, List.drop_eq_nil_iff]
  omega

/-- C10 on a buffer with one header `A: B` and the payload bytes 7, 8: the
payload starts at offset 7. -/
theorem decode_payload_is_remainder_example :
    decode [1, 1, 0, 1, 0, 65, 66, 7, 8] = .ok ⟨HeaderMap.empty.assign [65] [66], [7, 8]⟩ ∧
    1 + 4 * byteAt [1, 1, 0, 1, 0, 65, 66, 7, 8] 0
      + (declaredSizes [1, 1, 0, 1, 0, 65, 66, 7, 8] 1).sum = 7 ∧
    ([7, 8] : Bytes) = List.drop 7 [1, 1, 0, 1, 0, 65, 66, 7, 8] :=
  ⟨rfl, by decide,
   (decode_payload_is_remainder [1, 1, 0, 1, 0, 65, 66, 7, 8]
      ⟨HeaderMap.empty.assign [65] [66], [7, 8]⟩ rfl).1.trans (by decide)⟩

/-! ## Insertion order -/

/-- An ascending entry list is determined by the entries it holds. -/
theorem ascending_eq_of_perm (l₁ l₂ : List (Bytes × Bytes)) (hp : l₁.Perm l₂)
    (h₁ : l₁.Pairwise keyLt) (h₂ : l₂.Pairwise keyLt) : l₁ = l₂ := by
  haveI : IsAntisymm (Bytes × Bytes) keyLt :=
    ⟨fun a b hab hba => by
      have := strLt_asymm a.1 b.1 hab
      rw [show strLt b.1 a.1 = true from hba] at this
      cases this⟩
  exact List.eq_of_perm_of_sorted hp h₁ h₂

/-- Inserting a key that the list does not hold adds one entry. -/
theorem insertEntry_perm (k v : Bytes) :
    ∀ (l : List (Bytes × Bytes)), (∀ q ∈ l, q.1 ≠ k) → (insertEntry k v l).Perm ((k, v) :: l)
  | [], _ => List.Perm.refl _
  | (k', v') :: rest, h => by
    simp only [insertEntry]
    split_ifs with h1 h2
    · exact List.Perm.refl _
    · have ih := insertEntry_perm k v rest fun q hq => h q (List.mem_cons_of_mem _ hq)
      exact (List.Perm.cons _ ih).trans (List.Perm.swap _ _ _)
    · have hk : k = k' := strLt_connex k k' (by simpa using h1) (by simpa using h2)
      exact absurd hk.symm (h (k', v') (List.mem_cons_self _ _))

/-- Assigning pairs whose names are distinct from one another and from the
keys of the map adds exactly those pairs. -/
theorem assignAll_perm (ps : List (Bytes × Bytes)) :
    ∀ (h : HeaderMap), ((h.entries ++ ps).map Prod.fst).Nodup →
      (assignAll h ps).entries.Perm (h.entries ++ ps) := by
  induction ps with
  | nil => intro h _; simp [assignAll]
  | cons p tl ih =>
    intro h hnd
    have hmid : (h.entries ++ p :: tl).Perm (p :: (h.entries ++ tl)) := List.perm_middle
    have hnd' : ((p :: (h.entries ++ tl)).map Prod.fst).Nodup :=
      (List.Perm.nodup_iff (hmid.map Prod.fst)).1 hnd
    have hfresh : ∀ q ∈ h.entries, q.1 ≠ p.1 := by
      intro q hq heq
      rw [List.map_cons, List.nodup_cons] at hnd'
      apply hnd'.1
      rw [← heq]
      exact List.mem_map_of_mem Prod.fst (List.mem_append_left _ hq)
    have hstep : (h.assign p.1 p.2).entries.Perm (p :: h.entries) :=
      insertEntry_perm p.1 p.2 h.entries hfresh
    have hstep' : ((h.assign p.1 p.2).entries ++ tl).Perm (p :: (h.entries ++ tl)) :=
      hstep.append_right tl
    have hnd'' : (((h.assign p.1 p.2).entries ++ tl).map Prod.fst).Nodup :=
      (List.Perm.nodup_iff (hstep'.map Prod.fst)).2 hnd'
    exact ((ih (h.assign p.1 p.2) hnd'').trans hstep').trans hmid.symm

/-- C4. Insertion order does not matter: for pairs with pairwise distinct
names and any permutation of them, the message whose headers are assigned in
the one order and the message whose headers are assigned in the other order,
with the same payload, have the same `encode` result. -/
theorem encode_insertion_order (ps qs : List (Bytes × Bytes)) (payload : Bytes)
    (hdistinct : (ps.map Prod.fst).Nodup) (hperm : ps.Perm qs) :
    encode ⟨assignAll HeaderMap.empty ps, payload⟩
      = encode ⟨assignAll HeaderMap.empty qs, payload⟩ := by
  have hq : (qs.map Prod.fst).Nodup := (List.Perm.nodup_iff (hperm.map Prod.fst)).1 hdistinct
  have h1 : (assignAll HeaderMap.empty ps).entries.Perm ps := by
    have := assignAll_perm ps HeaderMap.empty (by simpa [HeaderMap.empty] using hdistinct)
    simpa [HeaderMap.empty] using this
  have h2 : (assignAll HeaderMap.empty qs).entries.Perm qs := by
    have := assignAll_perm qs HeaderMap.empty (by simpa [HeaderMap.empty] using hq)
    simpa [HeaderMap.empty] using this
  have heq : assignAll HeaderMap.empty ps = assignAll HeaderMap.empty qs :=
    HeaderMap.ext_entries _ _
      (ascending_eq_of_perm _ _ ((h1.trans hperm).trans h2.symm)
        (assignAll HeaderMap.empty ps).ascending (assignAll HeaderMap.empty qs).ascending)
  rw [heq]

/-- C4 on `B=2, A=1` against `A=1, B=2`: both encode to the same 13 bytes,
with `A` before `B` in the size table and in the content region. -/
theorem encode_insertion_order_example :
    encode ⟨assignAll HeaderMap.empty [([66], [50]), ([65], [49])], []⟩
        = encode ⟨assignAll HeaderMap.empty [([65], [49]), ([66], [50])], []⟩ ∧
    encode ⟨assignAll HeaderMap.empty [([65], [49]), ([66], [50])], []⟩
        = .ok [2, 1, 0, 1, 0, 1, 0, 1, 0, 65, 49, 66, 50] :=
  ⟨encode_insertion_order [([66], [50]), ([65], [49])] [([65], [49]), ([66], [50])] []
      (by decide) (List.Perm.swap _ _ _),
   rfl⟩

/-! ## The decoded headers -/

theorem lookupEntry_insertEntry (k v name : Bytes) :
    ∀ (l : List (Bytes × Bytes)),
      lookupEntry name (insertEntry k v l)
        = if k = name then some v else lookupEntry name l
  | [] => by simp [insertEntry, lookupEntry]
  | (k', v') :: rest => by
    have ih := lookupEntry_insertEntry k v name rest
    by_cases h1 : strLt k k' = true
    · simp only [insertEntry, if_pos h1]
      by_cases hkn : k = name
      · simp only [lookupEntry, if_pos hkn]
      · simp only [lookupEntry, if_neg hkn]
    · by_cases h2 : strLt k' k = true
      · simp only [insertEntry, if_neg h1, if_pos h2]
        have hne : k' ≠ k := by
          intro heq
          rw [heq, strLt_irrefl] at h2
          cases h2
        by_cases hkn : k = name
        · have hne' : ¬ (k' = name) := by rw [← hkn]; exact hne
          simp only [lookupEntry, if_neg hne', ih, if_pos hkn]
        · simp only [lookupEntry, ih, if_neg hkn]
      · simp only [insertEntry, if_neg h1, if_neg h2]
        have hk : k = k' := strLt_connex k k' (by simpa using h1) (by simpa using h2)
        by_cases hkn : k = name
        · have hkn' : k' = name := by rw [← hk]; exact hkn
          simp only [lookupEntry, if_pos hkn', if_pos hkn]
        · have hkn' : ¬ (k' = name) := by rw [← hk]; exact hkn
          simp only [lookupEntry, if_neg hkn', if_neg hkn]

/-- After a run of assignments a name holds the value of the last pair that
carries it, or else what it held before. -/
theorem lookup_assignAll (name : Bytes) (ps : List (Bytes × Bytes)) :
    ∀ (h : HeaderMap),
      (assignAll h ps).lookup name
        = match lastValue name ps with
          | some w => some w
          | none => h.lookup name := by
  induction ps with
  | nil => intro h; rfl
  | cons p tl ih =>
    intro h
    obtain ⟨k, v⟩ := p
    have hstep : assignAll h ((k, v) :: tl) = assignAll (h.assign k v) tl := rfl
    have hlook : (h.assign k v).lookup name
        = if k = name then some v else h.lookup name :=
      lookupEntry_insertEntry k v name h.entries
    rw [hstep, ih, hlook]
    simp only [lastValue]
    cases lastValue name tl with
    | some w => rfl
    | none =>
      by_cases hk : k = name
      · simp [hk]
      · simp [hk]

/-- The pair with index `i` of `slicedHeaders`: the two slices at the cursor
before header `i`. -/
theorem slicedHeaders_getElem? (data : Bytes) :
    ∀ (i : Nat) (sizes : List Nat) (offset : Nat), 2 * i + 1 < sizes.length →
      (slicedHeaders data sizes offset)[i]?
        = some ((data.drop (cursorAt sizes offset i)).take (sizes.getD (2 * i) 0),
                (data.drop (cursorAt sizes offset i + sizes.getD (2 * i) 0)).take
                  (sizes.getD (2 * i + 1) 0))
  | 0, a :: b :: rest, offset, _ => by
    simp [slicedHeaders, cursorAt]
  | i + 1, a :: b :: rest, offset, h => by
    have hlen : 2 * i + 1 < rest.length := by
      simp only [List.length_cons] at h
      omega
    have ih := slicedHeaders_getElem? data i rest (offset + a + b) hlen
    have hcur : cursorAt (a :: b :: rest) offset (i + 1) = cursorAt rest (offset + a + b) i := by
      unfold cursorAt
      have : 2 * (i + 1) = 2 * i + 1 + 1 := by omega
      rw [this, List.take_succ_cons, List.take_succ_cons, List.sum_cons, List.sum_cons]
      omega
    have h0 : (a :: b :: rest).getD (2 * (i + 1)) 0 = rest.getD (2 * i) 0 := by
      have : 2 * (i + 1) = 2 * i + 1 + 1 := by omega
      rw [this]
      rfl
    have h1 : (a :: b :: rest).getD (2 * (i + 1) + 1) 0 = rest.getD (2 * i + 1) 0 := by
      have : 2 * (i + 1) + 1 = 2 * i + 1 + 1 + 1 := by omega
      rw [this]
      rfl
    rw [hcur, h0, h1, ← ih]
    simp [slicedHeaders]

/-- C11. Decoded headers: when `decode` accepts a buffer with count byte `c`,
the header map is the result of assigning, in order, the pairs sliced by a
cursor from offset `1 + 4 * c`: pair `i` is `s_{2i}` bytes at the cursor, then
`s_{2i+1}` bytes; a later pair replaces an earlier one of the same name, so a
name holds the value of the last pair that carries it. -/
theorem decode_headers_last_wins (data : Bytes) (m : Message) (h : decode data = .ok m) :
    m.headers
        = assignAll HeaderMap.empty
            (slicedHeaders data (declaredSizes data (byteAt data 0)) (1 + 4 * byteAt data 0)) ∧
    (∀ i, i < byteAt data 0 →
      (slicedHeaders data (declaredSizes data (byteAt data 0)) (1 + 4 * byteAt data 0))[i]?
        = some
          ((data.drop (cursorAt (declaredSizes data (byteAt data 0)) (1 + 4 * byteAt data 0) i)).take
              ((declaredSizes data (byteAt data 0)).getD (2 * i) 0),
            (data.drop (cursorAt (declaredSizes data (byteAt data 0)) (1 + 4 * byteAt data 0) i
                + (declaredSizes data (byteAt data 0)).getD (2 * i) 0)).take
              ((declaredSizes data (byteAt data 0)).getD (2 * i + 1) 0))) ∧
    (∀ name, m.headers.lookup name
        = lastValue name
            (slicedHeaders data (declaredSizes data (byteAt data 0))
              (1 + 4 * byteAt data 0))) := by
  obtain ⟨_, _, _, hm⟩ := decode_ok_inv data m h
  have hh : m.headers = decodedHeaders data := by rw [hm]
  refine ⟨hh, ?_, ?_⟩
  · intro i hi
    apply slicedHeaders_getElem?
    rw [declaredSizes, sizesFrom_length]
    omega
  · intro name
    rw [hh]
    unfold decodedHeaders
    rw [lookup_assignAll]
    cases lastValue name
      (slicedHeaders data (declaredSizes data (byteAt data 0)) (1 + 4 * byteAt data 0)) with
    | some w => rfl
    | none => rfl

/-- C11 on a buffer that carries the name `A` twice, with values `B` and then
`C`: the decoded map holds `A: C`. -/
theorem decode_headers_last_wins_example :
    decode [2, 1, 0, 1, 0, 1, 0, 1, 0, 65, 66, 65, 67, 7]
        = .ok ⟨HeaderMap.empty.assign [65] [67], [7]⟩ ∧
    slicedHeaders [2, 1, 0, 1, 0, 1, 0, 1, 0, 65, 66, 65, 67, 7]
        (declaredSizes [2, 1, 0, 1, 0, 1, 0, 1, 0, 65, 66, 65, 67, 7] 2) 9
        = [([65], [66]), ([65], [67])] ∧
    (HeaderMap.empty.assign [65] [67]).lookup [65] = some [67] :=
  ⟨rfl, by decide,
   ((decode_headers_last_wins [2, 1, 0, 1, 0, 1, 0, 1, 0, 65, 66, 65, 67, 7]
      ⟨HeaderMap.empty.assign [65] [67], [7]⟩ rfl).2.2 [65]).trans (by decide)⟩

/-! ## The errors of `encode` -/

theorem validateHeaders_too_large (hs : List (Bytes × Bytes))
    (h : ∃ p ∈ hs, 1023 < p.1.length ∨ 1023 < p.2.length) :
    validateHeaders hs = .error .headerFieldTooLarge := by
  induction hs with
  | nil =>
    obtain ⟨p, hp, _⟩ := h
    cases hp
  | cons q rest ih =>
    obtain ⟨name, value⟩ := q
    simp only [validateHeaders, MAX_HEADER_SIZE]
    split_ifs with h1
    · rfl
    · apply ih
      obtain ⟨p, hp, hlong⟩ := h
      rcases List.mem_cons.1 hp with hp | hp
      · subst hp
        exact absurd hlong h1
      · exact ⟨p, hp, hlong⟩

theorem encode_tooManyHeaders (m : Message) (h : 63 < m.headers.size) :
    encode m = .error .tooManyHeaders := by
  have h' : m.headers.size > MAX_HEADERS := h
  simp only [encode, validateMessage, if_pos h']

theorem encode_payloadTooLarge (m : Message) (h1 : m.headers.size ≤ 63)
    (h2 : 262144 < m.payload.length) : encode m = .error .payloadTooLarge := by
  have h1' : ¬ (m.headers.size > MAX_HEADERS) := Nat.not_lt.2 h1
  have h2' : m.payload.length > MAX_PAYLOAD_SIZE := h2
  simp only [encode, validateMessage, if_neg h1', if_pos h2']

theorem encode_headerFieldTooLarge (m : Message) (h1 : m.headers.size ≤ 63)
    (h2 : m.payload.length ≤ 262144)
    (h3 : ∃ p ∈ m.headers.entries, 1023 < p.1.length ∨ 1023 < p.2.length) :
    encode m = .error .headerFieldTooLarge := by
  have h1' : ¬ (m.headers.size > MAX_HEADERS) := Nat.not_lt.2 h1
  have h2' : ¬ (m.payload.length > MAX_PAYLOAD_SIZE) := Nat.not_lt.2 h2
  simp only [encode, validateMessage, if_neg h1', if_neg h2', validateHeaders_too_large _ h3]

theorem longName_entries :
    (HeaderMap.empty.assign (List.replicate 1024 0) []).entries
      = [(List.replicate 1024 0, [])] := rfl

theorem longName_has_long_field (payload : Bytes) :
    ∃ p ∈ (Message.mk (HeaderMap.empty.assign (List.replicate 1024 0) []) payload).headers.entries,
      1023 < p.1.length ∨ 1023 < p.2.length := by
  refine ⟨(List.replicate 1024 0, []), ?_, Or.inl ?_⟩
  · show _ ∈ (HeaderMap.empty.assign (List.replicate 1024 0) []).entries
    rw [longName_entries]
    exact List.mem_singleton.2 rfl
  · show 1023 < (List.replicate 1024 (0 : Byte)).length
    rw [List.length_replicate]
    decide

theorem longPayload_length : 262144 < (List.replicate 262145 (0 : Byte)).length := by
  rw [List.length_replicate]
  decide

/-- C17. Error precedence of `encode`: more than 63 headers give the
header-count error; otherwise a payload of more than 262144 bytes gives the
payload error; otherwise a name or value of more than 1023 bytes gives the
header-field error; otherwise bytes are returned. -/
theorem encode_error_precedence (m : Message) :
    (63 < m.headers.size → encode m = .error .tooManyHeaders) ∧
    (m.headers.size ≤ 63 → 262144 < m.payload.length →
      encode m = .error .payloadTooLarge) ∧
    (m.headers.size ≤ 63 → m.payload.length ≤ 262144 →
      (∃ p ∈ m.headers.entries, 1023 < p.1.length ∨ 1023 < p.2.length) →
      encode m = .error .headerFieldTooLarge) ∧
    (m.headers.size ≤ 63 → m.payload.length ≤ 262144 →
      (∀ p ∈ m.headers.entries, p.1.length ≤ 1023 ∧ p.2.length ≤ 1023) →
      ∃ bs, encode m = .ok bs) :=
  ⟨encode_tooManyHeaders m, encode_payloadTooLarge m, encode_headerFieldTooLarge m,
   fun h1 h2 h3 => ⟨wire m, encode_of_valid m ⟨h1, h3, h2⟩⟩⟩

theorem manyLongNames_nodup : (manyLongNames.map Prod.fst).Nodup := by
  have hmap : manyLongNames.map Prod.fst
      = (List.range 64).map fun i => List.replicate 1024 (0 : Byte) ++ [toU8 i] := by
    unfold manyLongNames
    rw [List.map_map]
    rfl
  rw [hmap]
  refine (List.nodup_range 64).map_on ?_
  intro x hx y hy hxy
  have hx' := List.mem_range.1 hx
  have hy' := List.mem_range.1 hy
  have h1 := List.append_cancel_left hxy
  have h2 : toU8 x = toU8 y := by
    injection h1
  have h3 : (toU8 x).val = (toU8 y).val := by rw [h2]
  rw [toU8_val, toU8_val] at h3
  omega

theorem manyLongNames_perm :
    manyLongNamesMessage.headers.entries.Perm manyLongNames := by
  have := assignAll_perm manyLongNames HeaderMap.empty
    (by simpa [HeaderMap.empty] using manyLongNames_nodup)
  simpa [HeaderMap.empty] using this

theorem manyLongNames_size : manyLongNamesMessage.headers.size = 64 := by
  unfold HeaderMap.size
  rw [manyLongNames_perm.length_eq]
  unfold manyLongNames
  rw [List.length_map, List.length_range]

theorem manyLongNames_has_long_field :
    ∃ p ∈ manyLongNamesMessage.headers.entries, 1023 < p.1.length ∨ 1023 < p.2.length := by
  refine ⟨(List.replicate 1024 0 ++ [toU8 0], []), ?_, Or.inl ?_⟩
  · rw [manyLongNames_perm.mem_iff]
    exact List.mem_map.2 ⟨0, List.mem_range.2 (by decide), rfl⟩
  · show 1023 < (List.replicate 1024 (0 : Byte) ++ [toU8 0]).length
    rw [List.length_append, List.length_replicate]
    decide

/-- C14, as stated, fails: the message with a 1024-byte header name and a
payload of 262145 bytes has a name longer than 1023 bytes, and `encode` gives
the payload error for it, not the header-field error; the message with 64
headers whose names have 1025 bytes gets the header-count error. -/
theorem encode_long_field_other_error :
    ((∃ p ∈ longNameLongPayloadMessage.headers.entries,
        1023 < p.1.length ∨ 1023 < p.2.length) ∧
      encode longNameLongPayloadMessage = .error .payloadTooLarge ∧
      encode longNameLongPayloadMessage ≠ .error .headerFieldTooLarge) ∧
    ((∃ p ∈ manyLongNamesMessage.headers.entries,
        1023 < p.1.length ∨ 1023 < p.2.length) ∧
      encode manyLongNamesMessage = .error .tooManyHeaders ∧
      encode manyLongNamesMessage ≠ .error .headerFieldTooLarge) := by
  have hp : encode longNameLongPayloadMessage = .error .payloadTooLarge :=
    encode_payloadTooLarge longNameLongPayloadMessage (by decide) longPayload_length
  have hc : encode manyLongNamesMessage = .error .tooManyHeaders :=
    encode_tooManyHeaders manyLongNamesMessage (by rw [manyLongNames_size]; decide)
  refine ⟨⟨longName_has_long_field _, hp, ?_⟩, ⟨manyLongNames_has_long_field, hc, ?_⟩⟩
  · rw [hp]
    intro h
    cases h
  · rw [hc]
    intro h
    cases h

/-- C14, amended. For every message with at most 63 headers and a payload of
at most 262144 bytes in which some header name or value is longer than 1023
bytes, `encode` fails with the header-field error, which is neither the
header-count error nor the payload error. -/
theorem encode_header_field_error (m : Message) (h1 : m.headers.size ≤ 63)
    (h2 : m.payload.length ≤ 262144)
    (h3 : ∃ p ∈ m.headers.entries, 1023 < p.1.length ∨ 1023 < p.2.length) :
    encode m = .error .headerFieldTooLarge ∧
    EncodeError.headerFieldTooLarge ≠ EncodeError.tooManyHeaders ∧
    EncodeError.headerFieldTooLarge ≠ EncodeError.payloadTooLarge :=
  ⟨encode_headerFieldTooLarge m h1 h2 h3, by decide, by decide⟩

/-- C14, amended, on the message with one 1024-byte header name and no
payload. -/
theorem encode_header_field_error_example :
    encode longNameMessage = .error .headerFieldTooLarge ∧
    EncodeError.headerFieldTooLarge ≠ EncodeError.tooManyHeaders ∧
    EncodeError.headerFieldTooLarge ≠ EncodeError.payloadTooLarge :=
  encode_header_field_error longNameMessage (by decide) (by decide)
    (longName_has_long_field _)

/-! ## `decode` does not apply the limits of `encode` -/

theorem wire_longNameMessage :
    decode (wire longNameMessage) = .ok longNameMessage := by
  apply decode_wire_of_lt
  · decide
  · intro p hp
    have hp' : p ∈ (HeaderMap.empty.assign (List.replicate 1024 0) []).entries := hp
    rw [longName_entries, List.mem_singleton] at hp'
    rw [hp']
    constructor
    · show (List.replicate 1024 (0 : Byte)).length < 65536
      rw [List.length_replicate]
      decide
    · decide

theorem wire_longPayloadMessage :
    decode (wire longPayloadMessage) = .ok longPayloadMessage := by
  apply decode_wire_of_lt
  · decide
  · intro p hp
    cases hp

/-- C12. Limits not applied by `decode`: some buffer is decoded to a message
with a header name longer than 1023 bytes, and some buffer to a message with a
payload longer than 262144 bytes; `encode` rejects both decoded messages. -/
theorem decode_exceeds_encode_limits :
    (∃ data m, decode data = .ok m ∧
      (∃ p ∈ m.headers.entries, 1023 < p.1.length ∨ 1023 < p.2.length) ∧
      ∃ e, encode m = .error e) ∧
    (∃ data m, decode data = .ok m ∧ 262144 < m.payload.length ∧
      ∃ e, encode m = .error e) :=
  ⟨⟨wire longNameMessage, longNameMessage, wire_longNameMessage, longName_has_long_field _,
      .headerFieldTooLarge,
      encode_headerFieldTooLarge longNameMessage (by decide) (by decide)
        (longName_has_long_field _)⟩,
   ⟨wire longPayloadMessage, longPayloadMessage, wire_longPayloadMessage, longPayload_length,
      .payloadTooLarge,
      encode_payloadTooLarge longPayloadMessage (by decide) longPayload_length⟩⟩

/-! ## Bounds safety of `decode` -/

/-- C13. Bounds safety: with every access of `decode` checked, no input
reaches an access outside its container; `decode` returns a message or one
of its four own errors. -/
theorem decode_bounds_safe (data : Bytes) :
    decode data ≠ .error .outOfBounds ∧
    ((∃ m, decode data = .ok m) ∨ decode data = .error .emptyData ∨
      decode data = .error .invalidHeaderCount ∨
      decode data = .error .incompleteHeaderSizeData ∨
      decode data = .error .incompleteHeaderData) := by
  have hcases : (∃ m, decode data = .ok m) ∨ decode data = .error .emptyData ∨
      decode data = .error .invalidHeaderCount ∨
      decode data = .error .incompleteHeaderSizeData ∨
      decode data = .error .incompleteHeaderData := by
    by_cases hne : data = []
    · subst hne; exact Or.inr (Or.inl decode_nil)
    by_cases hc : 63 < byteAt data 0
    · exact Or.inr (Or.inr (Or.inl (decode_count_too_big data hne hc)))
    have hc' : byteAt data 0 ≤ 63 := Nat.not_lt.1 hc
    by_cases hlen : data.length < 1 + 4 * byteAt data 0
    · exact Or.inr (Or.inr (Or.inr (Or.inl (decode_table_short data hne hc' hlen))))
    by_cases hsum : data.length < payloadOffset data
    · exact Or.inr (Or.inr (Or.inr (Or.inr
        (decode_content_short data hne hc' (by omega) hsum))))
    exact Or.inl ⟨_, decode_fits data hne hc' (by omega)⟩
  refine ⟨?_, hcases⟩
  intro hoob
  rcases hcases with ⟨m, h⟩ | h | h | h | h <;> rw [h] at hoob <;> cases hoob

/-! ## The length of the output of `encode` -/

theorem contentOf_length (hs : List (Bytes × Bytes)) :
    (contentOf hs).length = (hs.map fun p => p.1.length + p.2.length).sum := by
  induction hs with
  | nil => rfl
  | cons p tl ih =>
    simp only [contentOf, List.flatMap_cons, List.length_append, List.map_cons,
      List.sum_cons] at ih ⊢
    rw [ih]

theorem fieldLengths_sum_le (hs : List (Bytes × Bytes))
    (hlim : ∀ p ∈ hs, p.1.length ≤ 1023 ∧ p.2.length ≤ 1023) :
    (hs.map fun p => p.1.length + p.2.length).sum ≤ 2046 * hs.length := by
  induction hs with
  | nil => simp
  | cons p tl ih =>
    have hp := hlim p (List.mem_cons_self _ _)
    have htl := ih fun q hq => hlim q (List.mem_cons_of_mem _ hq)
    simp only [List.map_cons, List.sum_cons, List.length_cons]
    omega

/-- C15. Encoded length: for a message within the limits with `k` headers the
output of `encode` has `1 + 4 * k` bytes plus the lengths of all names and
values plus the payload length; its first byte is `k`, the header content
starts at offset `1 + 4 * k`, and the whole is at most
`1 + 63 * 4 + 63 * 2046 + 262144` bytes long. -/
theorem encode_length (m : Message) (h : m.valid) :
    ∃ bs, encode m = .ok bs ∧
      bs.length
        = 1 + 4 * m.headers.size
          + (m.headers.entries.map fun p => p.1.length + p.2.length).sum
          + m.payload.length ∧
      byteAt bs 0 = m.headers.size ∧
      bs.drop (1 + 4 * m.headers.size)
        = (m.headers.entries.flatMap fun p => p.1 ++ p.2) ++ m.payload ∧
      bs.length ≤ 1 + 63 * 4 + 63 * 2046 + 262144 := by
  refine ⟨wire m, encode_of_valid m h, ?_⟩
  obtain ⟨hcount, hfields, hpayload⟩ := h
  have hsize : m.headers.size = m.headers.entries.length := rfl
  have hpre : ([toU8 m.headers.size] ++ sizeBytes (sizesOf m.headers.entries)).length
      = 1 + 4 * m.headers.size := by
    rw [List.length_append, sizeBytes_length, sizesOf_length, hsize]
    simp only [List.length_singleton]
    omega
  have hlen : (wire m).length
      = 1 + 4 * m.headers.size
        + (m.headers.entries.map fun p => p.1.length + p.2.length).sum
        + m.payload.length := by
    unfold wire
    rw [List.length_append, List.length_append, hpre, contentOf_length]
  have hsum := fieldLengths_sum_le m.headers.entries hfields
  refine ⟨hlen, ?_, ?_, ?_⟩
  · have : wire m = toU8 m.headers.size :: (sizeBytes (sizesOf m.headers.entries)
        ++ contentOf m.headers.entries ++ m.payload) := by simp [wire]
    rw [this, byteAt_cons_zero, toU8_val]
    omega
  · have : wire m = ([toU8 m.headers.size] ++ sizeBytes (sizesOf m.headers.entries))
        ++ (contentOf m.headers.entries ++ m.payload) := by simp [wire]
    rw [this, List.drop_left' hpre]
    rfl
  · rw [hlen]
    rw [hsize] at hcount ⊢
    omega

set_option maxRecDepth 100000 in
/-- C15 at the message of `main`: 1 + 8 + 45 + 15 = 69 bytes. -/
theorem encode_length_main :
    mainMessage.valid ∧
    ∃ bs, encode mainMessage = .ok bs ∧
      bs.length = 1 + 4 * 2 + 45 + 15 ∧
      byteAt bs 0 = 2 ∧
      bs.drop (1 + 4 * 2)
        = (contentType ++ applicationJson ++ xRequestId ++ requestId) ++ payloadStr ∧
      bs.length ≤ 1 + 63 * 4 + 63 * 2046 + 262144 :=
  ⟨by decide, encode_length mainMessage (by decide)⟩

/-! ## The number of decoded headers -/

theorem keys_insertEntry (k v x : Bytes) :
    ∀ (l : List (Bytes × Bytes)),
      x ∈ (insertEntry k v l).map Prod.fst ↔ x = k ∨ x ∈ l.map Prod.fst
  | [] => by simp [insertEntry]
  | (k', v') :: rest => by
    have ih := keys_insertEntry k v x rest
    by_cases h1 : strLt k k' = true
    · simp only [insertEntry, if_pos h1, List.map_cons, List.mem_cons]
    · by_cases h2 : strLt k' k = true
      · simp only [insertEntry, if_neg h1, if_pos h2, List.map_cons, List.mem_cons, ih]
        constructor
        · rintro (h | h | h)
          · exact Or.inr (Or.inl h)
          · exact Or.inl h
          · exact Or.inr (Or.inr h)
        · rintro (h | h | h)
          · exact Or.inr (Or.inl h)
          · exact Or.inl h
          · exact Or.inr (Or.inr h)
      · have hk : k = k' := strLt_connex k k' (by simpa using h1) (by simpa using h2)
        simp only [insertEntry, if_neg h1, if_neg h2, List.map_cons, List.mem_cons]
        rw [← hk]
        constructor
        · rintro (h | h)
          · exact Or.inl h
          · exact Or.inr (Or.inr h)
        · rintro (h | h | h)
          · exact Or.inl h
          · exact Or.inl h
          · exact Or.inr h

theorem keys_assignAll (x : Bytes) (ps : List (Bytes × Bytes)) :
    ∀ (h : HeaderMap),
      x ∈ (assignAll h ps).entries.map Prod.fst
        ↔ x ∈ h.entries.map Prod.fst ∨ x ∈ ps.map Prod.fst := by
  induction ps with
  | nil => intro h; simp [assignAll]
  | cons p tl ih =>
    intro h
    have hstep : assignAll h (p :: tl) = assignAll (h.assign p.1 p.2) tl := rfl
    have hkeys : x ∈ (h.assign p.1 p.2).entries.map Prod.fst
        ↔ x = p.1 ∨ x ∈ h.entries.map Prod.fst := keys_insertEntry p.1 p.2 x h.entries
    rw [hstep, ih, hkeys, List.map_cons, List.mem_cons]
    constructor
    · rintro ((h | h) | h)
      · exact Or.inr (Or.inl h)
      · exact Or.inl h
      · exact Or.inr (Or.inr h)
    · rintro (h | h | h)
      · exact Or.inl (Or.inr h)
      · exact Or.inl (Or.inl h)
      · exact Or.inr h

theorem ascending_keys_nodup (l : List (Bytes × Bytes)) (h : l.Pairwise keyLt) :
    (l.map Prod.fst).Nodup := by
  rw [List.Nodup, List.pairwise_map]
  refine h.imp ?_
  intro a b hab heq
  have hlt : strLt a.1 b.1 = true := hab
  rw [heq, strLt_irrefl] at hlt
  cases hlt

/-- The size of the map built from a list of pairs is the number of distinct
names in the list. -/
theorem size_assignAll_empty (ps : List (Bytes × Bytes)) :
    (assignAll HeaderMap.empty ps).size = (ps.map Prod.fst).toFinset.card := by
  have hnd := ascending_keys_nodup _ (assignAll HeaderMap.empty ps).ascending
  have hset : ((assignAll HeaderMap.empty ps).entries.map Prod.fst).toFinset
      = (ps.map Prod.fst).toFinset := by
    rw [List.toFinset.ext_iff]
    intro x
    rw [keys_assignAll]
    simp [HeaderMap.empty]
  rw [← hset, List.toFinset_card_of_nodup hnd, List.length_map]
  rfl

theorem toFinset_card_eq_length_iff (l : List Bytes) :
    l.toFinset.card = l.length ↔ l.Nodup := by
  constructor
  · intro h
    rw [List.card_toFinset] at h
    have := (List.dedup_sublist l).eq_of_length h
    exact List.dedup_eq_self.1 this
  · exact List.toFinset_card_of_nodup

theorem slicedHeaders_length (data : Bytes) :
    ∀ (n : Nat) (sizes : List Nat) (offset : Nat), sizes.length = 2 * n →
      (slicedHeaders data sizes offset).length = n
  | 0, sizes, offset, h => by
    have : sizes = [] := List.length_eq_zero.1 (by omega)
    subst this
    rfl
  | n + 1, a :: b :: rest, offset, h => by
    simp only [List.length_cons] at h
    simp only [slicedHeaders, List.length_cons]
    rw [slicedHeaders_length data n rest _ (by omega)]

/-- C18. Header count of a decoded message: when `decode` accepts a buffer,
the decoded map has at most as many headers as the count byte says, hence at
most 63, and exactly as many if and only if the sliced names are pairwise
distinct. -/
theorem decode_header_count (data : Bytes) (m : Message) (h : decode data = .ok m) :
    m.headers.size ≤ byteAt data 0 ∧ byteAt data 0 ≤ 63 ∧ m.headers.size ≤ 63 ∧
    (m.headers.size = byteAt data 0 ↔
      ((slicedHeaders data (declaredSizes data (byteAt data 0))
          (1 + 4 * byteAt data 0)).map Prod.fst).Nodup) := by
  obtain ⟨_, hc, _, hm⟩ := decode_ok_inv data m h
  have hh : m.headers = decodedHeaders data := by rw [hm]
  have hlen : ((slicedHeaders data (declaredSizes data (byteAt data 0))
      (1 + 4 * byteAt data 0)).map Prod.fst).length = byteAt data 0 := by
    rw [List.length_map]
    exact slicedHeaders_length data _ _ _ (sizesFrom_length _ _ _)
  have hsize : m.headers.size
      = ((slicedHeaders data (declaredSizes data (byteAt data 0))
          (1 + 4 * byteAt data 0)).map Prod.fst).toFinset.card := by
    rw [hh]
    exact size_assignAll_empty _
  have hle := List.toFinset_card_le
    ((slicedHeaders data (declaredSizes data (byteAt data 0))
      (1 + 4 * byteAt data 0)).map Prod.fst)
  rw [hlen] at hle
  refine ⟨by omega, hc, by omega, ?_⟩
  rw [hsize, ← toFinset_card_eq_length_iff, hlen]

/-- C18 on a buffer with count byte 2 that carries the name `A` twice (one
decoded header) and on one that carries `A` and `B` (two decoded headers). -/
theorem decode_header_count_examples :
    (HeaderMap.empty.assign [65] [67]).size = 1 ∧
    ((HeaderMap.empty.assign [65] [66]).assign [66] [67]).size = 2 ∧
    ((slicedHeaders [2, 1, 0, 1, 0, 1, 0, 1, 0, 65, 66, 66, 67, 7]
        (declaredSizes [2, 1, 0, 1, 0, 1, 0, 1, 0, 65, 66, 66, 67, 7] 2) 9).map
      Prod.fst).Nodup :=
  ⟨by decide, by decide,
   (decode_header_count [2, 1, 0, 1, 0, 1, 0, 1, 0, 65, 66, 66, 67, 7]
      ⟨(HeaderMap.empty.assign [65] [66]).assign [66] [67], [7]⟩ rfl).2.2.2.1 (by decide)⟩

/-! ## Encoding a decoded message -/

theorem byteAt_eq_getElem (data : Bytes) (i : Nat) (h : i < data.length) :
    byteAt data i = (data.get ⟨i, h⟩).val := by
  unfold byteAt
  rw [List.getElem?_eq_getElem h]
  rfl

theorem toU8_low (lo hi : Byte) : toU8 ((lo.val + 256 * hi.val) &&& 0xFF) = lo := by
  apply Fin.ext
  rw [toU8_val, and_0xFF]
  have := lo.isLt
  omega

theorem toU8_high (lo hi : Byte) : toU8 (((lo.val + 256 * hi.val) >>> 8) &&& 0xFF) = hi := by
  apply Fin.ext
  rw [toU8_val, shiftRight_and_0xFF]
  have := lo.isLt
  have := hi.isLt
  omega

/-- Writing the sizes read from a buffer gives the bytes they were read from. -/
theorem sizeBytes_sizesFrom (data : Bytes) :
    ∀ (n offset : Nat), offset + 2 * n ≤ data.length →
      sizeBytes (sizesFrom data offset n) = (data.drop offset).take (2 * n)
  | 0, offset, _ => by simp [sizesFrom, sizeBytes]
  | n + 1, offset, h => by
    have h0 : offset < data.length := by omega
    have h1 : offset + 1 < data.length := by omega
    have ih := sizeBytes_sizesFrom data n (offset + 2) (by omega)
    have hcons : sizeBytes (u16At data offset :: sizesFrom data (offset + 2) n)
        = toU8 (u16At data offset &&& 0xFF) :: toU8 ((u16At data offset >>> 8) &&& 0xFF)
            :: sizeBytes (sizesFrom data (offset + 2) n) := by
      simp [sizeBytes]
    have hdrop : data.drop offset
        = data.get ⟨offset, h0⟩ :: data.get ⟨offset + 1, h1⟩ :: data.drop (offset + 2) := by
      rw [List.drop_eq_getElem_cons h0, List.drop_eq_getElem_cons h1]
      rfl
    have htake : 2 * (n + 1) = 2 * n + 1 + 1 := by omega
    rw [sizesFrom_succ, hcons, ih, hdrop, htake, List.take_succ_cons, List.take_succ_cons]
    unfold u16At
    rw [byteAt_eq_getElem data offset h0, byteAt_eq_getElem data (offset + 1) h1,
      toU8_low, toU8_high]

/-- The sizes `encode` declares for the sliced pairs are the sizes they were
sliced with, when these fit the buffer. -/
theorem sizesOf_slicedHeaders (data : Bytes) :
    ∀ (n : Nat) (sizes : List Nat) (offset : Nat), sizes.length = 2 * n →
      (∀ s ∈ sizes, s < 65536) → offset + sizes.sum ≤ data.length →
      sizesOf (slicedHeaders data sizes offset) = sizes
  | 0, sizes, offset, h, _, _ => by
    have : sizes = [] := List.length_eq_zero.1 (by omega)
    subst this
    rfl
  | n + 1, a :: b :: rest, offset, h, hlt, hfit => by
    simp only [List.length_cons] at h
    simp only [List.sum_cons] at hfit
    have ha : a < 65536 := hlt a (List.mem_cons_self _ _)
    have hb : b < 65536 := hlt b (List.mem_cons_of_mem _ (List.mem_cons_self _ _))
    have ih := sizesOf_slicedHeaders data n rest (offset + a + b) (by omega)
      (fun s hs => hlt s (List.mem_cons_of_mem _ (List.mem_cons_of_mem _ hs))) (by omega)
    have hcons : sizesOf (slicedHeaders data (a :: b :: rest) offset)
        = toU16 ((data.drop offset).take a).length
            :: toU16 ((data.drop (offset + a)).take b).length
            :: sizesOf (slicedHeaders data rest (offset + a + b)) := by
      simp [slicedHeaders, sizesOf]
    have hla : ((data.drop offset).take a).length = a := by
      rw [List.length_take, List.length_drop]
      omega
    have hlb : ((data.drop (offset + a)).take b).length = b := by
      rw [List.length_take, List.length_drop]
      omega
    rw [hcons, ih, hla, hlb]
    unfold toU16
    rw [Nat.mod_eq_of_lt ha, Nat.mod_eq_of_lt hb]

/-- The sliced pairs, put end to end, are the bytes the cursor passed over. -/
theorem contentOf_slicedHeaders (data : Bytes) :
    ∀ (n : Nat) (sizes : List Nat) (offset : Nat), sizes.length = 2 * n →
      contentOf (slicedHeaders data sizes offset) = (data.drop offset).take sizes.sum
  | 0, sizes, offset, h => by
    have : sizes = [] := List.length_eq_zero.1 (by omega)
    subst this
    simp [slicedHeaders, contentOf]
  | n + 1, a :: b :: rest, offset, h => by
    simp only [List.length_cons] at h
    have ih := contentOf_slicedHeaders data n rest (offset + a + b) (by omega)
    have hcons : contentOf (slicedHeaders data (a :: b :: rest) offset)
        = (data.drop offset).take a ++ ((data.drop (offset + a)).take b
            ++ contentOf (slicedHeaders data rest (offset + a + b))) := by
      simp [slicedHeaders, contentOf]
    rw [hcons, ih, List.sum_cons, List.sum_cons, List.take_add, List.take_add,
      List.drop_drop, List.drop_drop]

/-- No sliced name or value is longer than the length it was sliced with. -/
theorem slicedHeaders_field_le (data : Bytes) (bound : Nat) :
    ∀ (n : Nat) (sizes : List Nat) (offset : Nat), sizes.length = 2 * n →
      (∀ s ∈ sizes, s ≤ bound) →
      ∀ p ∈ slicedHeaders data sizes offset, p.1.length ≤ bound ∧ p.2.length ≤ bound
  | 0, sizes, offset, h, _, p, hp => by
    have : sizes = [] := List.length_eq_zero.1 (by omega)
    subst this
    cases hp
  | n + 1, a :: b :: rest, offset, h, hle, p, hp => by
    simp only [List.length_cons] at h
    have ha : a ≤ bound := hle a (List.mem_cons_self _ _)
    have hb : b ≤ bound := hle b (List.mem_cons_of_mem _ (List.mem_cons_self _ _))
    simp only [slicedHeaders, List.mem_cons] at hp
    rcases hp with hp | hp
    · rw [hp]
      constructor
      · show ((data.drop offset).take a).length ≤ bound
        rw [List.length_take]
        omega
      · show ((data.drop (offset + a)).take b).length ≤ bound
        rw [List.length_take]
        omega
    · exact slicedHeaders_field_le data bound n rest (offset + a + b) (by omega)
        (fun s hs => hle s (List.mem_cons_of_mem _ (List.mem_cons_of_mem _ hs))) p hp

theorem take_drop_parts (l : Bytes) (a b c : Nat) :
    l.take a ++ (l.drop a).take b ++ (l.drop (a + b)).take c ++ l.drop (a + b + c) = l := by
  have h1 : l.drop (a + b + c) = ((l.drop a).drop b).drop c := by
    rw [List.drop_drop, List.drop_drop, Nat.add_assoc]
  have h2 : l.drop (a + b) = (l.drop a).drop b := by
    rw [List.drop_drop]
  rw [h1, h2, List.append_assoc, List.append_assoc, List.take_append_drop,
    List.take_append_drop, List.take_append_drop]

theorem take_one_eq (data : Bytes) (hne : data ≠ []) :
    [toU8 (byteAt data 0)] = data.take 1 := by
  match data, hne with
  | b :: tl, _ =>
    rw [byteAt_cons_zero]
    have : toU8 b.val = b := Fin.ext (Nat.mod_eq_of_lt b.isLt)
    rw [this]
    rfl

/-- Encoding the message decoded from a buffer whose sliced names ascend and
whose declared lengths and payload are within the limits gives the buffer. -/
theorem encode_decoded (b : Bytes) (m : Message) (h : decode b = .ok m)
    (hasc : (slicedHeaders b (declaredSizes b (byteAt b 0)) (1 + 4 * byteAt b 0)).Pairwise
      keyLt)
    (hlim : ∀ s ∈ declaredSizes b (byteAt b 0), s ≤ 1023)
    (hpay : m.payload.length ≤ 262144) : encode m = .ok b := by
  obtain ⟨hne, hc, hfit, hm⟩ := decode_ok_inv b m h
  unfold payloadOffset declaredTotal at hfit
  have hslen : (declaredSizes b (byteAt b 0)).length = 2 * byteAt b 0 := sizesFrom_length _ _ _
  have hlt : ∀ s ∈ declaredSizes b (byteAt b 0), s < 65536 := by
    intro s hs
    have := hlim s hs
    omega
  have hentries : m.headers.entries
      = slicedHeaders b (declaredSizes b (byteAt b 0)) (1 + 4 * byteAt b 0) := by
    rw [hm]
    show (decodedHeaders b).entries = _
    unfold decodedHeaders
    rw [assignAll_ascending _ _ (by simpa [HeaderMap.empty] using hasc)]
    simp [HeaderMap.empty]
  have hsize : m.headers.size = byteAt b 0 := by
    unfold HeaderMap.size
    rw [hentries]
    exact slicedHeaders_length b _ _ _ hslen
  have hsizes : sizesOf m.headers.entries = declaredSizes b (byteAt b 0) := by
    rw [hentries]
    exact sizesOf_slicedHeaders b _ _ _ hslen hlt hfit
  have hpayload : m.payload = b.drop (1 + 4 * byteAt b 0 + (declaredSizes b (byteAt b 0)).sum) := by
    rw [hm]
    rfl
  have hvalid : m.valid := by
    refine ⟨by omega, ?_, hpay⟩
    intro p hp
    rw [hentries] at hp
    exact slicedHeaders_field_le b 1023 _ _ _ hslen hlim p hp
  rw [encode_of_valid m hvalid]
  congr 1
  unfold wire
  have htable : sizeBytes (declaredSizes b (byteAt b 0))
      = (b.drop 1).take (4 * byteAt b 0) := by
    have := sizeBytes_sizesFrom b (2 * byteAt b 0) 1 (by omega)
    have h4 : 2 * (2 * byteAt b 0) = 4 * byteAt b 0 := by omega
    rw [h4] at this
    exact this
  have hcontent : contentOf m.headers.entries
      = (b.drop (1 + 4 * byteAt b 0)).take (declaredSizes b (byteAt b 0)).sum := by
    rw [hentries]
    exact contentOf_slicedHeaders b _ _ _ hslen
  rw [hsize, hsizes, htable, hcontent, hpayload, take_one_eq b hne]
  exact take_drop_parts b 1 (4 * byteAt b 0) (declaredSizes b (byteAt b 0)).sum

/-- C16. Re-encoding a canonical buffer: when `decode` accepts a buffer whose
sliced names are strictly ascending, whose declared lengths are all at most
1023 and whose payload has at most 262144 bytes, `encode` of the decoded
message returns that buffer, byte for byte.  Without ascending names this
fails: some accepted buffer, within the same limits, is re-encoded to other
bytes. -/
theorem reencode_canonical :
    (∀ (b : Bytes) (m : Message), decode b = .ok m →
      (slicedHeaders b (declaredSizes b (byteAt b 0)) (1 + 4 * byteAt b 0)).Pairwise
        (fun p q => strLt p.1 q.1 = true) →
      (∀ s ∈ declaredSizes b (byteAt b 0), s ≤ 1023) →
      m.payload.length ≤ 262144 →
      encode m = .ok b) ∧
    (∃ (b : Bytes) (m : Message), decode b = .ok m ∧
      (∀ s ∈ declaredSizes b (byteAt b 0), s ≤ 1023) ∧
      m.payload.length ≤ 262144 ∧
      ∃ b', encode m = .ok b' ∧ b' ≠ b) :=
  ⟨fun b m h hasc hlim hpay => encode_decoded b m h hasc hlim hpay,
   [2, 1, 0, 1, 0, 1, 0, 1, 0, 66, 66, 65, 67, 7, 8],
   ⟨(HeaderMap.empty.assign [66] [66]).assign [65] [67], [7, 8]⟩,
   rfl, by decide, by decide,
   [2, 1, 0, 1, 0, 1, 0, 1, 0, 65, 67, 66, 66, 7, 8], rfl, by decide⟩

/-- C16 on the buffer with the headers `A: C` and `B: B` in this order and
the payload bytes 7, 8: its decoded message is encoded to the same bytes. -/
theorem reencode_canonical_example :
    decode [2, 1, 0, 1, 0, 1, 0, 1, 0, 65, 67, 66, 66, 7, 8]
        = .ok ⟨(HeaderMap.empty.assign [65] [67]).assign [66] [66], [7, 8]⟩ ∧
    encode ⟨(HeaderMap.empty.assign [65] [67]).assign [66] [66], [7, 8]⟩
        = .ok [2, 1, 0, 1, 0, 1, 0, 1, 0, 65, 67, 66, 66, 7, 8] :=
  ⟨rfl,
   reencode_canonical.1 [2, 1, 0, 1, 0, 1, 0, 1, 0, 65, 67, 66, 66, 7, 8]
     ⟨(HeaderMap.empty.assign [65] [67]).assign [66] [66], [7, 8]⟩ rfl
     (by decide) (by decide) (by decide)⟩

end SinchMessaging
